import Mathlib

/-!
Verification of the MeetingMind AI meeting-intelligence core.

This file shallowly embeds the core of the repository — the processing
pipeline (`handleNewMeeting`, `handleUpdatedMeeting`, `batchProcessMeetings`,
`reprocessFailedMeetings` from the orchestration module), the AI service
helpers (`splitIntoChunks`, `cosineSimilarity`, `upsertTopicAndLink`,
`generateAndStoreEmbeddings`, `processMeeting`) and the search / Q&A services
(`searchMeetings`, `findRelevantChunks`, `answerMeetingQuestion`,
`getAnswerForQuestion`) — and proves properties of the embedding.

Modelling conventions:
- Text is modelled as `List Char` (abbreviated `Str`), so that string
  operations (trim, split on whitespace, join) are plain list functions.
- JavaScript numbers are modelled as real numbers; `Math.sqrt` is `Real.sqrt`.
- The Supabase database is a record of tables (`Store`); row inserts append,
  deletes filter, updates map.  Database calls themselves are assumed to
  succeed (the code logs and swallows database errors row by row).
- External AI providers (AssemblyAI transcription, Gemini generation and
  embedding) are oracles collected in an `Env` record: each call site's
  outcome is a function of the call's inputs.
- Promises are sequenced; exceptions are `Except` values threaded to the
  nearest catch, together with the store as mutated so far.
-/

namespace MeetingMind

/-- Text is modelled as a list of characters. -/
abbrev Str := List Char

/-- Model of JavaScript `String.prototype.trim`: drop whitespace from both
ends of the character list. -/
def trimChars (s : Str) : Str :=
  ((s.dropWhile Char.isWhitespace).reverse.dropWhile Char.isWhitespace).reverse

/-- Model of joining a list of words with single spaces
(`Array.prototype.join(' ')`, also used for rejoining chunks). -/
def joinWords : List Str → Str
  | [] => []
  | [w] => w
  | w :: ws => w ++ ' ' :: joinWords ws

/-- Worker for `splitWs`, a state machine over the characters.  When the
second argument is `some acc`, `acc` is the (reversed) token currently being
accumulated; `none` means the machine is inside a whitespace run that has
already emitted the token before it.  A run of whitespace acts as a single
separator, exactly as the regex `/\s+/` does, and — like the JavaScript
`split` — a leading or trailing separator produces an empty token at the
corresponding end. -/
def splitWsGo : Str → Option Str → List Str
  | [], some acc => [acc.reverse]
  | [], none => [[]]
  | c :: rest, some acc =>
    if c.isWhitespace then acc.reverse :: splitWsGo rest none
    else splitWsGo rest (some (c :: acc))
  | c :: rest, none =>
    if c.isWhitespace then splitWsGo rest none
    else splitWsGo rest (some [c])

/-- Model of `text.split(/\s+/)` from `splitIntoChunks` in `ai.service.ts`. -/
def splitWs (s : Str) : List Str :=
  splitWsGo s (some [])

/-- Loop of `splitIntoChunks` (ai.service.ts): take `wordsPerChunk` words at
a time, join them with single spaces, and keep the chunk only if it is
nonempty after trimming.  The source iterates `i` from `0` by
`wordsPerChunk` while `i < words.length`; with a positive chunk size that
loop performs at most `words.length` iterations, which is supplied here as
fuel (`fuel`) to make the recursion structural. -/
def chunkLoop (wordsPerChunk : Nat) : Nat → List Str → List Str
  | _, [] => []
  | 0, _ :: _ => []
  | fuel + 1, w :: ws =>
    let chunk := joinWords ((w :: ws).take wordsPerChunk)
    (if 0 < (trimChars chunk).length then [chunk] else []) ++
      chunkLoop wordsPerChunk fuel ((w :: ws).drop wordsPerChunk)

/-- Model of `splitIntoChunks` from `ai.service.ts`: split the text on
whitespace and group the resulting words into chunks of `wordsPerChunk`
words, dropping chunks that are empty after trimming. -/
def splitIntoChunks (text : Str) (wordsPerChunk : Nat) : List Str :=
  chunkLoop wordsPerChunk (splitWs text).length (splitWs text)

/-- A word is clean when it is nonempty and contains no whitespace; a
transcript "of N words" is the space-separated join of N clean words. -/
def CleanWord (w : Str) : Prop := w ≠ [] ∧ ∀ c ∈ w, ¬ c.isWhitespace

instance (w : Str) : Decidable (CleanWord w) := by
  unfold CleanWord; infer_instance

/-- Dot product accumulated over the paired entries, as the single loop in
`cosineSimilarity` does. -/
noncomputable def dotProd (a b : List ℝ) : ℝ :=
  (List.zipWith (fun x y => x * y) a b).sum

/-- Sum of squares of the entries (the loop's `normA` / `normB`
accumulators, before the square root is taken). -/
noncomputable def sumSq (a : List ℝ) : ℝ :=
  (a.map (fun x => x * x)).sum

open Classical in
/-- Model of `cosineSimilarity` from `topics.service.ts`: mismatched or
empty vectors score 0; otherwise the dot product over the denominator
`Math.sqrt(normA) * Math.sqrt(normB)`, with a zero denominator returning 0
instead of dividing.  (The copy in `ai.service.ts` differs only in omitting
the `a.length === 0` test, which changes nothing: an empty vector has zero
norm, so the denominator test already returns 0.)  JavaScript float
arithmetic is idealised as real arithmetic. -/
noncomputable def cosineSimilarity (a b : List ℝ) : ℝ :=
  if a.length ≠ b.length ∨ a.length = 0 then 0
  else if Real.sqrt (sumSq a) * Real.sqrt (sumSq b) = 0 then 0
  else dotProd a b / (Real.sqrt (sumSq a) * Real.sqrt (sumSq b))

/-- Meeting processing status (`ProcessingStatus` in the orchestration
module). -/
inductive ProcessingStatus
  | processing
  | ready
  | failed
deriving DecidableEq

/-- Action item priority. -/
inductive Priority
  | high
  | medium
  | low
deriving DecidableEq

/-- Action item status; new rows are inserted with status `pending`. -/
inductive ActionStatus
  | pending
  | in_progress
  | completed
deriving DecidableEq

/-- A row of the `meetings` table (the fields the core reads or writes). -/
structure Meeting where
  id : Nat
  status : ProcessingStatus
  transcript : Option Str
  summary : Option Str
  video_url : Option Str
deriving DecidableEq

/-- A row of the `action_items` table as inserted by
`extractMeetingInsights`. -/
structure ActionItemRow where
  meeting_id : Nat
  description : Str
  priority : Priority
  due_date : Option Str
  status : ActionStatus
deriving DecidableEq

/-- A row of the `decisions` table as inserted by
`extractMeetingInsights`. -/
structure DecisionRow where
  meeting_id : Nat
  decision_text : Str
  context : Option Str
  tags : Option (List Str)
deriving DecidableEq

/-- A row of the `topics` table.  Database-generated UUIDs are modelled as
naturals handed out by the store's `nextTopicId` counter. -/
structure TopicRow where
  id : Nat
  name : Str
  meeting_count : Nat
  last_discussed : Option Str
deriving DecidableEq

/-- A row of the `meeting_topics` link table (primary key is the pair, so a
duplicate insert conflicts and is swallowed by the code). -/
structure MeetingTopicRow where
  meeting_id : Nat
  topic_id : Nat
deriving DecidableEq

/-- A row of the `meeting_embeddings` table. -/
structure EmbeddingRow where
  meeting_id : Nat
  embedding : List ℝ
  content_chunk : Str
  chunk_index : Nat

/-- The Supabase database as seen by the core: one list per table, plus a
counter for fresh topic ids. -/
structure Store where
  meetings : List Meeting
  action_items : List ActionItemRow
  decisions : List DecisionRow
  topics : List TopicRow
  meeting_topics : List MeetingTopicRow
  meeting_embeddings : List EmbeddingRow
  nextTopicId : Nat

/-- An action item as parsed out of the Gemini JSON response
(`ExtractedActionItem`); a missing priority defaults to `medium` at insert
time (`item.priority || 'medium'`). -/
structure ExtractedActionItem where
  description : Str
  due_date : Option Str
  priority : Option Priority
deriving DecidableEq

/-- A decision as parsed out of the Gemini JSON response
(`ExtractedDecision`). -/
structure ExtractedDecision where
  decision_text : Str
  context : Option Str
  tags : Option (List Str)
deriving DecidableEq

/-- The parsed Gemini insights response (its `topics` array is not used by
`extractMeetingInsights`; topic names reach the store through
`extractTopics` inside `updateTopicsAndEmbeddings`, modelled by
`Env.topics`). -/
structure GeminiInsights where
  actionItems : List ExtractedActionItem
  decisions : List ExtractedDecision
deriving DecidableEq

/-- Oracles for the external AI providers and the clock.  Each field gives
the outcome of one kind of external call as a function of that call's
inputs: `transcription` is the submit-and-poll outcome for an audio URL
(`Except.error` covers provider errors and the poll-budget timeout),
`insights` the parsed structured-extraction outcome for a transcript
(`Except.error` covers generation failures and JSON parse failures),
`summary` the optional summary (`none` when summary generation failed and
was swallowed), `topics` the extracted topic list (`[]` when extraction
failed and was swallowed), `embed` the embedding of one chunk (`none` when
that chunk's embedding call failed and was skipped), and `now` the current
timestamp string. -/
structure Env where
  transcription : Str → Except Str Str
  insights : Str → Except Str GeminiInsights
  summary : Str → Option Str
  topics : Str → List Str
  embed : Str → Option (List ℝ)
  now : Str

/-- Model of `updateMeetingStatus`: update the status of every meetings row
with the given id (a no-op when the meeting does not exist, matching the
zero-rows-matched update). -/
def updateMeetingStatus (meetingId : Nat) (status : ProcessingStatus)
    (s : Store) : Store :=
  { s with meetings := s.meetings.map fun m =>
      if m.id = meetingId then { m with status := status } else m }

/-- Model of `getMeeting`: fetch the meetings row by id. -/
def getMeeting (meetingId : Nat) (s : Store) : Option Meeting :=
  s.meetings.find? fun m => m.id == meetingId

/-- The persisted status of a meeting. -/
def statusOf (s : Store) (meetingId : Nat) : Option ProcessingStatus :=
  (getMeeting meetingId s).map (·.status)

/-- Model of `deleteExistingActionItems`. -/
def deleteExistingActionItems (meetingId : Nat) (s : Store) : Store :=
  { s with action_items := s.action_items.filter fun r => r.meeting_id != meetingId }

/-- Model of `deleteExistingDecisions`. -/
def deleteExistingDecisions (meetingId : Nat) (s : Store) : Store :=
  { s with decisions := s.decisions.filter fun r => r.meeting_id != meetingId }

/-- Model of `deleteExistingMeetingTopics`; note it touches only the link
table, never the `topics` table. -/
def deleteExistingMeetingTopics (meetingId : Nat) (s : Store) : Store :=
  { s with meeting_topics := s.meeting_topics.filter fun r => r.meeting_id != meetingId }

/-- Model of `deleteExistingEmbeddings`. -/
def deleteExistingEmbeddings (meetingId : Nat) (s : Store) : Store :=
  { s with meeting_embeddings := s.meeting_embeddings.filter fun r => r.meeting_id != meetingId }

/-- Helper of `transcribeMeeting`'s success path: persist the transcript
and set the status to `ready` in one update, as the single
`.update({ transcript, status: 'ready' })` call does. -/
def setTranscriptReady (meetingId : Nat) (t : Str) (s : Store) : Store :=
  { s with meetings := s.meetings.map fun m =>
      if m.id = meetingId then { m with transcript := some t, status := .ready } else m }

/-- Model of `transcribeMeeting` from `ai.service.ts`: on provider success
the transcript is saved and the meeting set to `ready`; on any error
(submission failure, explicit provider error status, or poll-budget
timeout) the meeting is set to `failed` and the error is rethrown to the
caller. -/
def transcribeMeeting (env : Env) (meetingId : Nat) (audioUrl : Str)
    (s : Store) : Except Str Str × Store :=
  match env.transcription audioUrl with
  | .error e => (.error e, updateMeetingStatus meetingId .failed s)
  | .ok t => (.ok t, setTranscriptReady meetingId t s)

/-- The `action_items` row built for one extracted item. -/
def mkActionItemRow (meetingId : Nat) (item : ExtractedActionItem) : ActionItemRow :=
  { meeting_id := meetingId, description := item.description,
    priority := item.priority.getD .medium, due_date := item.due_date,
    status := .pending }

/-- The `decisions` row built for one extracted decision. -/
def mkDecisionRow (meetingId : Nat) (d : ExtractedDecision) : DecisionRow :=
  { meeting_id := meetingId, decision_text := d.decision_text,
    context := d.context, tags := d.tags }

/-- Persist the generated summary on the meetings row (`null` summaries are
skipped). -/
def updateSummary (meetingId : Nat) (summaryText : Option Str) (s : Store) : Store :=
  match summaryText with
  | none => s
  | some text =>
    { s with meetings := s.meetings.map fun m =>
        if m.id = meetingId then { m with summary := some text } else m }

/-- Model of `extractMeetingInsights` from `ai.service.ts`: on a parse or
generation failure the error is rethrown and nothing is written; on success
the extracted action items and decisions are inserted row by row (the
per-row database-error skip cannot fire in this model, where database calls
succeed) and the summary, when generated, is saved. -/
def extractMeetingInsights (env : Env) (meetingId : Nat) (transcript : Str)
    (s : Store) : Except Str (List ActionItemRow × List DecisionRow) × Store :=
  match env.insights transcript with
  | .error e => (.error e, s)
  | .ok ins =>
    let actionRows := ins.actionItems.map (mkActionItemRow meetingId)
    let decisionRows := ins.decisions.map (mkDecisionRow meetingId)
    let s1 := { s with action_items := s.action_items ++ actionRows,
                       decisions := s.decisions ++ decisionRows }
    (.ok (actionRows, decisionRows), updateSummary meetingId (env.summary transcript) s1)

/-- The normalization applied to topic names:
`topicName.toLowerCase().trim()`. -/
def normalizeTopicName (topicName : Str) : Str :=
  trimChars (topicName.map Char.toLower)

/-- Insert a meeting-topic link, swallowing the duplicate-key conflict (the
table's primary key is the pair). -/
def linkTopicToMeeting (meetingId topicId : Nat) (s : Store) : Store :=
  if s.meeting_topics.any fun l => l.meeting_id == meetingId && l.topic_id == topicId then s
  else { s with meeting_topics := s.meeting_topics ++ [⟨meetingId, topicId⟩] }

/-- Model of `upsertTopicAndLink` from `ai.service.ts`: look up the topic
by normalized name (the `.single()` call is modelled as first-match
lookup); bump its counter and refresh `last_discussed` when found,
otherwise create it with counter 1; then link it to the meeting, ignoring a
duplicate link. -/
def upsertTopicAndLink (env : Env) (meetingId : Nat) (topicName : Str)
    (s : Store) : Store :=
  let normalizedName := normalizeTopicName topicName
  match s.topics.find? (fun t => t.name == normalizedName) with
  | some existingTopic =>
    let s1 := { s with topics := s.topics.map fun t =>
        if t.id = existingTopic.id then
          { t with meeting_count := t.meeting_count + 1,
                   last_discussed := some env.now }
        else t }
    linkTopicToMeeting meetingId existingTopic.id s1
  | none =>
    let newTopic : TopicRow :=
      { id := s.nextTopicId, name := normalizedName, meeting_count := 1,
        last_discussed := some env.now }
    let s1 := { s with topics := s.topics ++ [newTopic],
                       nextTopicId := s.nextTopicId + 1 }
    linkTopicToMeeting meetingId newTopic.id s1

/-- The per-chunk loop of `generateAndStoreEmbeddings`: each chunk is
embedded and inserted with its index; a failed embedding call skips that
chunk (partial coverage is accepted). -/
def storeEmbeddingsLoop (env : Env) (meetingId : Nat) :
    List (Nat × Str) → Store → Store
  | [], s => s
  | (i, chunk) :: rest, s =>
    match env.embed chunk with
    | some vec => storeEmbeddingsLoop env meetingId rest
        { s with meeting_embeddings :=
            s.meeting_embeddings ++ [⟨meetingId, vec, chunk, i⟩] }
    | none => storeEmbeddingsLoop env meetingId rest s

/-- Model of `generateAndStoreEmbeddings` from `ai.service.ts`: split the
transcript into 500-word chunks, delete the meeting's previous embedding
rows, then embed and insert the chunks in order. -/
def generateAndStoreEmbeddings (env : Env) (meetingId : Nat) (transcript : Str)
    (s : Store) : Store :=
  let chunks := splitIntoChunks transcript 500
  storeEmbeddingsLoop env meetingId chunks.enum (deleteExistingEmbeddings meetingId s)

/-- Model of `updateTopicsAndEmbeddings` from `ai.service.ts`: extract
topic names (a failed extraction yields `[]` and is swallowed), upsert and
link each in order, then regenerate the embeddings.  None of its internal
failures propagate, so it returns the store directly. -/
def updateTopicsAndEmbeddings (env : Env) (meetingId : Nat) (transcript : Str)
    (s : Store) : Store :=
  let topicNames := env.topics transcript
  let s1 := topicNames.foldl (fun acc name => upsertTopicAndLink env meetingId name acc) s
  generateAndStoreEmbeddings env meetingId transcript s1

/-- Model of `processMeeting` from `ai.service.ts`: transcribe, extract
insights, then update topics and embeddings, rethrowing the first error. -/
def processMeeting (env : Env) (meetingId : Nat) (audioUrl : Str) (s : Store) :
    Except Str (Str × List ActionItemRow × List DecisionRow) × Store :=
  match transcribeMeeting env meetingId audioUrl s with
  | (.error e, s1) => (.error e, s1)
  | (.ok transcript, s1) =>
    match extractMeetingInsights env meetingId transcript s1 with
    | (.error e, s2) => (.error e, s2)
    | (.ok (actionRows, decisionRows), s2) =>
      (.ok (transcript, actionRows, decisionRows),
        updateTopicsAndEmbeddings env meetingId transcript s2)

/-- The structured result returned by the orchestration entry points. -/
structure MeetingProcessingResult where
  success : Bool
  meetingId : Nat
  transcript : Option Str
  actionItems : List ActionItemRow
  decisions : List DecisionRow
  error : Option Str
deriving DecidableEq

/-- Model of `handleNewMeeting` (processNew): set status to `processing`
unconditionally — the current status is never read — and run the pipeline;
any exception is caught, the status forced to `failed`, and a structured
failure result returned instead of rethrowing. -/
def handleNewMeeting (env : Env) (s : Store) (meetingId : Nat) (audioUrl : Str) :
    MeetingProcessingResult × Store :=
  let s1 := updateMeetingStatus meetingId .processing s
  match processMeeting env meetingId audioUrl s1 with
  | (.ok (transcript, actionRows, decisionRows), s2) =>
    ({ success := true, meetingId := meetingId, transcript := some transcript,
       actionItems := actionRows, decisions := decisionRows, error := none }, s2)
  | (.error e, s2) =>
    ({ success := false, meetingId := meetingId, transcript := none,
       actionItems := [], decisions := [], error := some e },
      updateMeetingStatus meetingId .failed s2)

/-- Model of `handleUpdatedMeeting` (reprocess): fetch the meeting, set
status to `processing` (again without reading the current status), delete
the four derived tables' rows for the meeting, determine the transcript
(new audio → re-transcribe; else the stored transcript; else fail), re-run
extraction and the topics/embeddings step, and finish with status `ready`;
any exception is caught, the status forced to `failed`, and a structured
failure result returned. -/
def handleUpdatedMeeting (env : Env) (s : Store) (meetingId : Nat)
    (newAudioUrl : Option Str) : MeetingProcessingResult × Store :=
  match getMeeting meetingId s with
  | none =>
    ({ success := false, meetingId := meetingId, transcript := none,
       actionItems := [], decisions := [],
       error := some (String.toList ("Meeting " ++ toString meetingId ++ " not found")) },
      updateMeetingStatus meetingId .failed s)
  | some meeting =>
    let s1 := updateMeetingStatus meetingId .processing s
    let s2 := deleteExistingEmbeddings meetingId (deleteExistingMeetingTopics meetingId
        (deleteExistingDecisions meetingId (deleteExistingActionItems meetingId s1)))
    let transcriptStep : Except Str Str × Store :=
      match newAudioUrl with
      | some url => transcribeMeeting env meetingId url s2
      | none =>
        match meeting.transcript with
        | some t => (.ok t, s2)
        | none =>
          (.error (String.toList "No audio URL provided and no existing transcript found"), s2)
    match transcriptStep with
    | (.error e, s3) =>
      ({ success := false, meetingId := meetingId, transcript := none,
         actionItems := [], decisions := [], error := some e },
        updateMeetingStatus meetingId .failed s3)
    | (.ok transcript, s3) =>
      match extractMeetingInsights env meetingId transcript s3 with
      | (.error e, s4) =>
        ({ success := false, meetingId := meetingId, transcript := none,
           actionItems := [], decisions := [], error := some e },
          updateMeetingStatus meetingId .failed s4)
      | (.ok (actionRows, decisionRows), s4) =>
        let s5 := updateTopicsAndEmbeddings env meetingId transcript s4
        ({ success := true, meetingId := meetingId, transcript := some transcript,
           actionItems := actionRows, decisions := decisionRows, error := none },
          updateMeetingStatus meetingId .ready s5)

/-- The pacing delay `batchProcessMeetings` sleeps between items
(milliseconds). -/
def batchProcessDelayMs : Nat := 1000

/-- The pacing delay `reprocessFailedMeetings` sleeps between items
(milliseconds). -/
def reprocessFailedDelayMs : Nat := 2000

/-- Model of `batchProcessMeetings`: process the meetings strictly
sequentially via `handleNewMeeting`, collecting every result including
failures (the pacing sleep does not affect the store). -/
def batchProcessMeetings (env : Env) (s : Store)
    (meetings : List (Nat × Str)) : List MeetingProcessingResult × Store :=
  match meetings with
  | [] => ([], s)
  | (meetingId, audioUrl) :: rest =>
    let step := handleNewMeeting env s meetingId audioUrl
    let next := batchProcessMeetings env step.2 rest
    (step.1 :: next.1, next.2)

/-- The per-meeting loop of `reprocessFailedMeetings`: a failed meeting
with a stored `video_url` is re-run through `handleNewMeeting`; only a
meeting without one goes through `handleUpdatedMeeting` (reprocess) on its
existing transcript. -/
def reprocessFailedLoop (env : Env) :
    List Meeting → Store → List MeetingProcessingResult × Store
  | [], s => ([], s)
  | m :: rest, s =>
    let step :=
      match m.video_url with
      | some url => handleNewMeeting env s m.id url
      | none => handleUpdatedMeeting env s m.id none
    let next := reprocessFailedLoop env rest step.2
    (step.1 :: next.1, next.2)

/-- Model of `reprocessFailedMeetings`: select the meetings whose status is
`failed` (one upfront query) and run the per-meeting loop over them. -/
def reprocessFailedMeetings (env : Env) (s : Store) :
    List MeetingProcessingResult × Store :=
  reprocessFailedLoop env
    (s.meetings.filter fun m => m.status == ProcessingStatus.failed) s

/-- The ids of the meetings rows. -/
def meetingIds (s : Store) : List Nat := s.meetings.map (·.id)

/-- Environment for the C1 counterexample: every provider call succeeds. -/
def c1Env : Env :=
  { transcription := fun _ => .ok (String.toList "hello world"),
    insights := fun _ => .ok ⟨[⟨String.toList "follow up", none, some .high⟩], []⟩,
    summary := fun _ => none,
    topics := fun _ => [],
    embed := fun _ => none,
    now := String.toList "2024-01-01" }

/-- Store for the C1 counterexample: meeting 1 is currently `processing`,
i.e. a run is already in flight. -/
def c1Store : Store :=
  { meetings := [⟨1, .processing, none, none, none⟩],
    action_items := [], decisions := [], topics := [], meeting_topics := [],
    meeting_embeddings := [], nextTopicId := 0 }

/-- Environment for the C3 witness: the transcription call times out. -/
def c3Env : Env :=
  { transcription := fun _ => .error (String.toList "Transcription timed out"),
    insights := fun _ => .ok ⟨[], []⟩,
    summary := fun _ => none,
    topics := fun _ => [],
    embed := fun _ => none,
    now := String.toList "2024-01-01" }

/-- Store for the C3 witness: meeting 1 exists and is `ready`, with one
pre-existing action item for another meeting. -/
def c3Store : Store :=
  { meetings := [⟨1, .ready, none, none, none⟩],
    action_items := [⟨2, String.toList "other", .low, none, .pending⟩],
    decisions := [], topics := [], meeting_topics := [],
    meeting_embeddings := [], nextTopicId := 0 }

/-- The embedding rows one run writes for a transcript: one row per
500-word chunk whose embedding call succeeded, carrying the chunk text and
its index. -/
def embedRows (env : Env) (meetingId : Nat) (transcript : Str) : List EmbeddingRow :=
  (splitIntoChunks transcript 500).enum.filterMap fun p =>
    (env.embed p.2).map fun v => ⟨meetingId, v, p.2, p.1⟩

/-- Environment for the C4 counterexample and witness: both transcription
and insight extraction succeed, producing one fresh action item. -/
def c4Env : Env :=
  { transcription := fun _ => .ok (String.toList "w1 w2"),
    insights := fun _ => .ok ⟨[⟨String.toList "new", none, none⟩], []⟩,
    summary := fun _ => none,
    topics := fun _ => [],
    embed := fun _ => none,
    now := String.toList "2024-01-01" }

/-- The stale action item left by the failed run of meeting 1. -/
def c4OldRow : ActionItemRow := ⟨1, String.toList "old", .low, none, .pending⟩

/-- The action item the newest run produces. -/
def c4NewRow : ActionItemRow := ⟨1, String.toList "new", .medium, none, .pending⟩

/-- Store for the C4 counterexample and witness: meeting 1 is `failed`,
has both a stored audio reference and a transcript, and still carries the
stale action item. -/
def c4Store : Store :=
  { meetings := [⟨1, .failed, some (String.toList "tr"), none,
      some (String.toList "u")⟩],
    action_items := [c4OldRow], decisions := [], topics := [],
    meeting_topics := [], meeting_embeddings := [], nextTopicId := 0 }

/-- Monotonicity relation on the topics table: every topic row survives
(same id and name) with a counter at least as large. -/
def TopicsMono (s s' : Store) : Prop :=
  ∀ t ∈ s.topics, ∃ t' ∈ s'.topics, t'.id = t.id ∧ t'.name = t.name ∧
    t.meeting_count ≤ t'.meeting_count

/-- Environment for the C8 witness. -/
def c8Env : Env :=
  { transcription := fun _ => .ok (String.toList "w"),
    insights := fun _ => .ok ⟨[], []⟩,
    summary := fun _ => none,
    topics := fun _ => [],
    embed := fun _ => none,
    now := String.toList "2024-02-02" }

/-- Store for the C8 witness: one existing topic named `budget` with
counter 3. -/
def c8Store : Store :=
  { meetings := [], action_items := [], decisions := [],
    topics := [⟨5, String.toList "budget", 3, none⟩], meeting_topics := [],
    meeting_embeddings := [], nextTopicId := 6 }

/-- The invariant carried through the topic phase of a reprocess: every link
of the processed meeting points at a topic whose name is one of the newest
run's normalized topic names. -/
def LinksOnlyNew (meetingId : Nat) (names : List Str) (s : Store) : Prop :=
  ∀ l ∈ s.meeting_topics, l.meeting_id = meetingId →
    ∃ tp ∈ s.topics, tp.id = l.topic_id ∧
      tp.name ∈ names.map normalizeTopicName

/-- Environment for the C2 witness: extraction succeeds with one action
item, one decision and one topic; every chunk embeds (as the empty
vector); a summary is produced. -/
def c2Env : Env :=
  { transcription := fun _ => .ok (String.toList "w1 w2 w3"),
    insights := fun _ => .ok ⟨[⟨String.toList "item", none, some .low⟩],
      [⟨String.toList "ship it", none, none⟩]⟩,
    summary := fun _ => some (String.toList "sum"),
    topics := fun _ => [String.toList "T1"],
    embed := fun _ => some [],
    now := String.toList "2024-03-03" }

/-- Store for the C2 witness: meeting 1 has a transcript and stale derived
rows from a prior run — an action item, a decision, a topic link and an
embedding chunk. -/
def c2Store : Store :=
  { meetings := [⟨1, .ready, some (String.toList "w1 w2 w3"), none, none⟩],
    action_items := [⟨1, String.toList "stale", .high, none, .pending⟩],
    decisions := [⟨1, String.toList "stale dec", none, none⟩],
    topics := [⟨9, String.toList "old", 2, none⟩],
    meeting_topics := [⟨1, 9⟩],
    meeting_embeddings := [⟨1, [], String.toList "oldchunk", 0⟩],
    nextTopicId := 10 }

/-- A scored chunk inside `searchMeetings` (step 3 of the source). -/
structure ScoredChunk where
  meetingId : Nat
  snippet : Str
  relevance : ℝ
  fullChunk : Str

/-- A search result returned by `searchMeetings` in `topics.service.ts`. -/
structure MeetingSearchResult where
  meetingId : Nat
  snippet : Str
  relevance : ℝ

/-- A source reference attached to a Q&A answer. -/
structure AnswerSource where
  meetingId : Nat
  snippet : Str
deriving DecidableEq

/-- The Q&A service result. -/
structure QAResult where
  answer : Str
  sources : List AnswerSource
deriving DecidableEq

/-- The orchestrator-level Q&A result (`QuestionAnswerResult`). -/
structure QuestionAnswerResult where
  answer : Str
  sources : List AnswerSource
deriving DecidableEq

/-- A relevant chunk as returned by `findRelevantChunks`. -/
structure RelevantChunk where
  meetingId : Nat
  content : Str
  relevance : ℝ

/-- Model of `truncateSnippet`: text at most `maxLength` long is returned
as is, otherwise it is cut at `maxLength`, trimmed, and suffixed with an
ellipsis. -/
def truncateSnippet (text : Str) (maxLength : Nat) : Str :=
  if text.length ≤ maxLength then text
  else trimChars (text.take maxLength) ++ String.toList "..."

open Classical in
/-- Insertion step of the model of `Array.prototype.sort` with comparator
`(a, b) => b.relevance - a.relevance`: the element is inserted in front of
the first strictly less relevant element, producing a list in weakly
descending key order. -/
noncomputable def insertByRelevance {α : Type} (key : α → ℝ) (x : α) :
    List α → List α
  | [] => [x]
  | y :: ys =>
    if key y < key x then x :: y :: ys else y :: insertByRelevance key x ys

/-- Insertion sort by weakly descending real-valued key, the model of the
descending relevance sort used by both retrieval paths. -/
noncomputable def sortByRelevance {α : Type} (key : α → ℝ) : List α → List α
  | [] => []
  | x :: xs => insertByRelevance key x (sortByRelevance key xs)

/-- The dedup-and-truncate loop of `searchMeetings` (step 5 of the
source): walk the sorted chunks, skip meetings already seen, push one
result per new meeting, and break once `topK` results were pushed.  The
`seen` set and the output array grow together, so the output length equals
`seen.length` at every step. -/
def dedupLoop (topK : Nat) (seen : List Nat) :
    List ScoredChunk → List MeetingSearchResult
  | [] => []
  | x :: xs =>
    if x.meetingId ∈ seen then dedupLoop topK seen xs
    else if seen.length + 1 ≥ topK then
      [⟨x.meetingId, x.snippet, x.relevance⟩]
    else
      ⟨x.meetingId, x.snippet, x.relevance⟩ :: dedupLoop topK (x.meetingId :: seen) xs

/-- Model of `searchMeetings` from `topics.service.ts`: reject an empty
query, return no results on an empty corpus, otherwise score every stored
chunk against the query embedding (an oracle parameter standing for the
embedding provider's output), sort descending by relevance, deduplicate to
one result per meeting and stop at `topK`. -/
noncomputable def searchMeetings (query : Str) (topK : Nat)
    (queryEmbedding : List ℝ) (s : Store) :
    Except Str (List MeetingSearchResult) :=
  if (trimChars query).length = 0 then
    .error (String.toList "Search query cannot be empty")
  else if s.meeting_embeddings.length = 0 then .ok []
  else
    .ok (dedupLoop topK []
      (sortByRelevance (fun c => c.relevance)
        (s.meeting_embeddings.map fun record =>
          ({ meetingId := record.meeting_id,
             snippet := truncateSnippet record.content_chunk 300,
             relevance := cosineSimilarity queryEmbedding record.embedding,
             fullChunk := record.content_chunk } : ScoredChunk))))

/-- Model of `findRelevantChunks` from the Q&A service: score all stored
chunks, sort descending and take the first `topK` without deduplicating by
meeting. -/
noncomputable def findRelevantChunks (query : Str) (topK : Nat)
    (queryEmbedding : List ℝ) (s : Store) : List RelevantChunk :=
  if s.meeting_embeddings.length = 0 then []
  else
    (sortByRelevance (fun c : RelevantChunk => c.relevance)
      (s.meeting_embeddings.map fun record =>
        ⟨record.meeting_id, record.content_chunk,
          cosineSimilarity queryEmbedding record.embedding⟩)).take topK

/-- The canned answer returned on an empty retrieval. -/
def qaNoContentMsg : Str :=
  String.toList ("I could not find any relevant meeting content to answer " ++
    "your question. Please try rephrasing your question or ensure meetings " ++
    "have been processed.")

/-- The labeled context block: one `[Source n]` header per chunk. -/
def buildQAContext (chunks : List RelevantChunk) : Str :=
  List.intercalate (String.toList "\n\n")
    (chunks.enum.map fun p =>
      String.toList ("[Source " ++ toString (p.1 + 1) ++ "]\n") ++ p.2.content)

/-- The Q&A generation prompt (fixed instruction text around the context
and the question). -/
def buildQAPrompt (context question : Str) : Str :=
  String.toList ("You are an AI assistant that answers questions about " ++
      "meetings based on transcript content.\n\nUse ONLY the following " ++
      "meeting transcript excerpts to answer the question. If the " ++
      "information is not in the provided context, say so clearly.\n\n" ++
      "Context from meeting transcripts:\n") ++
    context ++ String.toList "\n\nQuestion: " ++ question ++
    String.toList ("\n\nInstructions:\n- Answer concisely and accurately " ++
      "based on the provided context\n- If multiple sources discuss the " ++
      "topic, synthesize the information\n- If the context does not " ++
      "contain enough information, acknowledge this\n- Do not make up " ++
      "information not present in the context\n- Keep the answer focused " ++
      "and relevant\n\nAnswer:")

/-- Model of `answerMeetingQuestion` from the Q&A service.  `gen` is the
generation-model oracle; the returned natural number counts how many
generation-model calls the execution performed.  An empty question throws;
an empty retrieval returns the canned answer with no sources and performs
zero generation calls; otherwise one generation call is made and its
answer returned verbatim (trimmed) with one source per retrieved chunk. -/
noncomputable def answerMeetingQuestion (question : Str) (topK : Nat)
    (queryEmbedding : List ℝ) (gen : Str → Except Str Str) (s : Store) :
    Except Str QAResult × Nat :=
  if (trimChars question).length = 0 then
    (.error (String.toList "Question cannot be empty"), 0)
  else
    let relevantChunks := findRelevantChunks question topK queryEmbedding s
    if relevantChunks.length = 0 then
      (.ok ⟨qaNoContentMsg, []⟩, 0)
    else
      match gen (buildQAPrompt (buildQAContext relevantChunks) question) with
      | .error e => (.error (String.toList "Q&A failed: " ++ e), 1)
      | .ok answerText =>
        (.ok ⟨trimChars answerText,
          relevantChunks.map fun c => ⟨c.meetingId, truncateSnippet c.content 200⟩⟩, 1)

/-- The fixed reply to an empty or whitespace-only question. -/
def validQuestionMsg : Str := String.toList "Please provide a valid question."

/-- Leading text of the orchestrator's error reply. -/
def qaErrorHead : Str :=
  String.toList "I encountered an error while trying to answer your question: "

/-- Trailing text of the orchestrator's error reply. -/
def qaErrorTail : Str := String.toList ". Please try again."

/-- Model of `getAnswerForQuestion` from the orchestration module.  The
returned natural number counts how many times the Q&A service
(`answerMeetingQuestion`) was invoked. -/
noncomputable def getAnswerForQuestion (question : Str) (topK : Nat)
    (queryEmbedding : List ℝ) (gen : Str → Except Str Str) (s : Store) :
    QuestionAnswerResult × Nat :=
  if (trimChars question).length = 0 then (⟨validQuestionMsg, []⟩, 0)
  else
    match (answerMeetingQuestion question topK queryEmbedding gen s).1 with
    | .ok r => (⟨r.answer, r.sources⟩, 1)
    | .error e => (⟨qaErrorHead ++ e ++ qaErrorTail, []⟩, 1)

/-- Store for the C7 witness: nothing has been embedded. -/
def c7Store : Store :=
  { meetings := [], action_items := [], decisions := [], topics := [],
    meeting_topics := [], meeting_embeddings := [], nextTopicId := 0 }

/-- Store for the C10 witness: a single embedded chunk, so the Q&A service
reaches the (failing) generation model. -/
def c10Store : Store :=
  { meetings := [], action_items := [], decisions := [], topics := [],
    meeting_topics := [],
    meeting_embeddings := [⟨3, [], String.toList "chunk text", 0⟩],
    nextTopicId := 0 }

/-- Store for the C6 counterexample: two meetings with identically embedded
chunks, so both score identically against any query. -/
def c6Store : Store :=
  { meetings := [], action_items := [], decisions := [], topics := [],
    meeting_topics := [],
    meeting_embeddings := [⟨1, [], String.toList "alpha", 0⟩,
      ⟨2, [], String.toList "beta", 0⟩],
    nextTopicId := 0 }

/-- Store for the C6 witness: empty corpus. -/
def c6EmptyStore : Store :=
  { meetings := [], action_items := [], decisions := [], topics := [],
    meeting_topics := [], meeting_embeddings := [], nextTopicId := 0 }

/-- Joining a nonempty list onto a nonempty list inserts a single space. -/
theorem joinWords_append (a b : List Str) (ha : a ≠ []) (hb : b ≠ []) :
    joinWords (a ++ b) = joinWords a ++ ' ' :: joinWords b := by
  induction a with
  | nil => exact absurd rfl ha
  | cons w ws ih =>
    cases ws with
    | nil =>
      obtain ⟨x, xs, rfl⟩ := List.exists_cons_of_ne_nil hb
      simp [joinWords]
    | cons w2 ws2 =>
      have h := ih (by simp)
      show w ++ ' ' :: joinWords ((w2 :: ws2) ++ b) =
        (w ++ ' ' :: joinWords (w2 :: ws2)) ++ ' ' :: joinWords b
      rw [h]
      simp

/-- The join of a list headed by a nonempty word starts with that word's
first character. -/
theorem joinWords_cons_head (c : Char) (w : Str) (ws : List Str) :
    ∃ rest, joinWords ((c :: w) :: ws) = c :: rest := by
  cases ws with
  | nil => exact ⟨w, rfl⟩
  | cons x xs => exact ⟨w ++ ' ' :: joinWords (x :: xs), rfl⟩

/-- A string containing a non-whitespace character does not trim to empty. -/
theorem trimChars_ne_nil_of_mem (s : Str) (c : Char) (hc : c ∈ s)
    (hw : ¬ c.isWhitespace) : trimChars s ≠ [] := by
  intro h
  unfold trimChars at h
  rw [List.reverse_eq_nil_iff, List.dropWhile_eq_nil_iff] at h
  have hcd : c ∈ s.dropWhile Char.isWhitespace := by
    have hsplit := List.takeWhile_append_dropWhile (p := Char.isWhitespace) (l := s)
    rw [← hsplit] at hc
    rcases List.mem_append.mp hc with h1 | h2
    · exact absurd (List.mem_takeWhile_imp h1) hw
    · exact h2
  exact hw (h c (List.mem_reverse.mpr hcd))

/-- Scanning a run of clean characters just accumulates them. -/
theorem splitWsGo_append_clean (w : Str) (hw : ∀ c ∈ w, ¬ c.isWhitespace) :
    ∀ t acc, splitWsGo (w ++ t) (some acc) = splitWsGo t (some (w.reverse ++ acc)) := by
  induction w with
  | nil => intro t acc; simp
  | cons c w' ih =>
    intro t acc
    have hc : ¬ c.isWhitespace := hw c (by simp)
    have hw' : ∀ x ∈ w', ¬ x.isWhitespace := fun x hx => hw x (by simp [hx])
    have h1 : splitWsGo ((c :: w') ++ t) (some acc) =
        splitWsGo (w' ++ t) (some (c :: acc)) := by
      simp [splitWsGo, hc]
    rw [h1, ih hw' t (c :: acc)]
    simp

/-- Starting the scanner in separator-skip mode or in fresh-token mode makes
no difference when the next character is not whitespace. -/
theorem splitWsGo_none_eq_some_nil (c : Char) (rest : Str) (hc : ¬ c.isWhitespace) :
    splitWsGo (c :: rest) none = splitWsGo (c :: rest) (some []) := by
  simp [splitWsGo, hc]

/-- Splitting on whitespace is a left inverse of joining clean words with
single spaces. -/
theorem splitWs_joinWords (words : List Str) (hclean : ∀ w ∈ words, CleanWord w)
    (hne : words ≠ []) : splitWs (joinWords words) = words := by
  induction words with
  | nil => exact absurd rfl hne
  | cons w ws ih =>
    have hwclean := hclean w (by simp)
    have hwsclean : ∀ x ∈ ws, CleanWord x := fun x hx => hclean x (by simp [hx])
    cases ws with
    | nil =>
      unfold splitWs
      rw [show joinWords [w] = w ++ [] by simp [joinWords],
        splitWsGo_append_clean w hwclean.2 [] []]
      simp [splitWsGo]
    | cons w2 ws2 =>
      obtain ⟨cw2, w2', rfl⟩ := List.exists_cons_of_ne_nil (hwsclean w2 (by simp)).1
      have hne2 : ((cw2 :: w2') :: ws2) ≠ [] := by simp
      unfold splitWs
      rw [show joinWords (w :: (cw2 :: w2') :: ws2) =
          w ++ ' ' :: joinWords ((cw2 :: w2') :: ws2) from rfl,
        splitWsGo_append_clean w hwclean.2 _ []]
      have hsp : (' ').isWhitespace = true := by decide
      have hstep : splitWsGo (' ' :: joinWords ((cw2 :: w2') :: ws2))
          (some (w.reverse ++ [])) =
          w :: splitWsGo (joinWords ((cw2 :: w2') :: ws2)) none := by
        simp [splitWsGo, hsp]
      rw [hstep]
      obtain ⟨rest, hrest⟩ := joinWords_cons_head cw2 w2' ws2
      have hcw2 : ¬ cw2.isWhitespace :=
        (hwsclean (cw2 :: w2') (by simp)).2 cw2 (by simp)
      rw [hrest, splitWsGo_none_eq_some_nil cw2 rest hcw2, ← hrest]
      have hih := ih hwsclean hne2
      unfold splitWs at hih
      rw [hih]

/-- The chunk loop on an empty word list produces no chunks. -/
theorem chunkLoop_nil (K fuel : Nat) : chunkLoop K fuel [] = [] := by
  cases fuel <;> rfl

/-- Core lemma for the chunker: with positive chunk size, enough fuel and
clean words, the loop produces exactly the ceiling number of chunks, each
nonempty after trimming, and their space-join is the space-join of the
original words. -/
theorem chunkLoop_spec (W : Nat) (hW : 0 < W) :
    ∀ fuel ws, ws ≠ [] → ws.length ≤ fuel → (∀ w ∈ ws, CleanWord w) →
      (chunkLoop W fuel ws).length = (ws.length + W - 1) / W ∧
      (∀ ch ∈ chunkLoop W fuel ws, trimChars ch ≠ []) ∧
      joinWords (chunkLoop W fuel ws) = joinWords ws := by
  intro fuel
  induction fuel with
  | zero =>
    intro ws hne hlen
    cases ws with
    | nil => exact absurd rfl hne
    | cons w rest => simp at hlen
  | succ fuel ih =>
    intro ws hne hlen hclean
    obtain ⟨w, rest, rfl⟩ := List.exists_cons_of_ne_nil hne
    obtain ⟨cw, w', rfl⟩ :=
      List.exists_cons_of_ne_nil (hclean w (List.mem_cons_self w rest)).1
    obtain ⟨W', rfl⟩ : ∃ W', W = W' + 1 := ⟨W - 1, by omega⟩
    have hcw : ¬ cw.isWhitespace :=
      (hclean (cw :: w') (List.mem_cons_self _ rest)).2 cw (List.mem_cons_self _ _)
    have htake : ((cw :: w') :: rest).take (W' + 1) = (cw :: w') :: rest.take W' :=
      List.take_succ_cons
    have hdrop : ((cw :: w') :: rest).drop (W' + 1) = rest.drop W' :=
      List.drop_succ_cons
    obtain ⟨jr, hjr⟩ := joinWords_cons_head cw w' (rest.take W')
    have hchunk_ne : trimChars (joinWords (((cw :: w') :: rest).take (W' + 1))) ≠ [] := by
      rw [htake]
      exact trimChars_ne_nil_of_mem _ cw (by rw [hjr]; simp) hcw
    have hunfold : chunkLoop (W' + 1) (fuel + 1) ((cw :: w') :: rest) =
        joinWords (((cw :: w') :: rest).take (W' + 1)) ::
          chunkLoop (W' + 1) fuel (((cw :: w') :: rest).drop (W' + 1)) := by
      simp only [chunkLoop]
      rw [if_pos (List.length_pos.mpr hchunk_ne)]
      simp
    by_cases hsmall : ((cw :: w') :: rest).length ≤ W' + 1
    · have hdropnil : ((cw :: w') :: rest).drop (W' + 1) = [] :=
        List.drop_eq_nil_of_le hsmall
      have htakeall : ((cw :: w') :: rest).take (W' + 1) = (cw :: w') :: rest :=
        List.take_of_length_le hsmall
      rw [htakeall] at hchunk_ne
      rw [hunfold, hdropnil, htakeall, chunkLoop_nil]
      refine ⟨?_, ?_, by simp [joinWords]⟩
      · show 1 = (((cw :: w') :: rest).length + (W' + 1) - 1) / (W' + 1)
        have h1 : ((cw :: w') :: rest).length + (W' + 1) - 1 =
            (((cw :: w') :: rest).length - 1) + (W' + 1) := by
          simp only [List.length_cons]; omega
        rw [h1, Nat.add_div_right _ hW,
          Nat.div_eq_of_lt (by simp only [List.length_cons] at hsmall ⊢; omega)]
      · intro ch hch
        rw [List.mem_singleton.mp hch]; exact hchunk_ne
    · push_neg at hsmall
      have hlensimp : ((cw :: w') :: rest).length = rest.length + 1 := by simp
      have hdne : rest.drop W' ≠ [] := by
        intro h
        have h2 := congrArg List.length h
        rw [List.length_drop] at h2
        simp only [List.length_nil] at h2
        rw [hlensimp] at hsmall
        omega
      have hdlen : (rest.drop W').length ≤ fuel := by
        rw [List.length_drop]
        rw [hlensimp] at hlen
        omega
      have hdclean : ∀ x ∈ rest.drop W', CleanWord x := fun x hx =>
        hclean x (List.mem_cons_of_mem _ (List.drop_subset W' rest hx))
      obtain ⟨ihlen, ihtrim, ihjoin⟩ := ih (rest.drop W') hdne hdlen hdclean
      have hrestlen : W' + 1 ≤ rest.length := by rw [hlensimp] at hsmall; omega
      have hrecne : chunkLoop (W' + 1) fuel (rest.drop W') ≠ [] := by
        apply List.length_pos.mp
        rw [ihlen, List.length_drop]
        exact Nat.div_pos (by omega) (by omega)
      rw [hunfold, hdrop]
      refine ⟨?_, ?_, ?_⟩
      · rw [List.length_cons, ihlen, List.length_drop, hlensimp]
        have h1 : rest.length - W' + (W' + 1) - 1 =
            (rest.length - W' - 1) + (W' + 1) := by omega
        have h2 : rest.length + 1 + (W' + 1) - 1 = rest.length + (W' + 1) := by omega
        have h3 : rest.length = (rest.length - W' - 1) + (W' + 1) := by omega
        rw [h1, h2, Nat.add_div_right _ hW]
        conv_rhs => rw [h3, Nat.add_div_right _ hW, Nat.add_div_right _ hW]
      · intro ch hch
        rcases List.mem_cons.mp hch with h1 | h2
        · rw [h1]; exact hchunk_ne
        · exact ihtrim ch h2
      · have hj1 : joinWords
            (joinWords (((cw :: w') :: rest).take (W' + 1)) ::
              chunkLoop (W' + 1) fuel (rest.drop W')) =
            joinWords (((cw :: w') :: rest).take (W' + 1)) ++
              ' ' :: joinWords (chunkLoop (W' + 1) fuel (rest.drop W')) := by
          obtain ⟨y, ys, hy⟩ := List.exists_cons_of_ne_nil hrecne
          rw [hy]
          rfl
        rw [hj1, ihjoin, htake,
          ← joinWords_append _ _ (by simp) hdne]
        have : (cw :: w') :: rest.take W' ++ rest.drop W' = (cw :: w') :: rest := by
          rw [List.cons_append, List.take_append_drop]
        rw [this]

/-- C5: for every transcript consisting of N clean words joined by single
spaces (N > 0) and chunk size W > 0, `splitIntoChunks` produces exactly
⌈N/W⌉ = (N + W - 1) / W chunks, every chunk is nonempty after trimming (in
particular there is no empty trailing chunk), and re-joining the chunks with
single spaces reproduces the original transcript. -/
theorem splitIntoChunks_count_and_join (words : List Str) (W : Nat) (hW : 0 < W)
    (hne : words ≠ []) (hclean : ∀ w ∈ words, CleanWord w) :
    (splitIntoChunks (joinWords words) W).length = (words.length + W - 1) / W ∧
    (∀ chunk ∈ splitIntoChunks (joinWords words) W, trimChars chunk ≠ []) ∧
    joinWords (splitIntoChunks (joinWords words) W) = joinWords words := by
  unfold splitIntoChunks
  rw [splitWs_joinWords words hclean hne]
  exact chunkLoop_spec W hW words.length words hne (le_refl _) hclean

/-- C5 witness: a 1000-word transcript with chunk size 500 yields exactly
2 chunks. -/
theorem splitIntoChunks_count_and_join_witness :
    0 < 500 ∧ (List.replicate 1000 (['a'] : Str)) ≠ [] ∧
    (∀ w ∈ List.replicate 1000 (['a'] : Str), CleanWord w) ∧
    (splitIntoChunks (joinWords (List.replicate 1000 (['a'] : Str))) 500).length = 2 := by
  have hclean : ∀ w ∈ List.replicate 1000 (['a'] : Str), CleanWord w := by
    intro w hw
    rw [List.eq_of_mem_replicate hw]
    decide
  have hne : (List.replicate 1000 (['a'] : Str)) ≠ [] := by
    intro h
    have h2 := congrArg List.length h
    rw [List.length_replicate] at h2
    exact absurd h2 (by norm_num)
  refine ⟨by norm_num, hne, hclean, ?_⟩
  have h := splitIntoChunks_count_and_join (List.replicate 1000 ['a']) 500
    (by norm_num) hne hclean
  rw [h.1, List.length_replicate]

/-- A sum of squares is nonnegative. -/
theorem sumSq_nonneg (a : List ℝ) : 0 ≤ sumSq a := by
  unfold sumSq
  apply List.sum_nonneg
  intro x hx
  obtain ⟨y, _, rfl⟩ := List.mem_map.mp hx
  exact mul_self_nonneg y

/-- A sum of squares vanishes exactly when every entry vanishes. -/
theorem sumSq_eq_zero_iff (a : List ℝ) : sumSq a = 0 ↔ ∀ x ∈ a, x = 0 := by
  induction a with
  | nil => simp [sumSq]
  | cons x xs ih =>
    unfold sumSq at ih ⊢
    simp only [List.map_cons, List.sum_cons, List.mem_cons]
    have hx2 : 0 ≤ x * x := mul_self_nonneg x
    have hxs : 0 ≤ (xs.map (fun x => x * x)).sum := sumSq_nonneg xs
    constructor
    · intro h y hy
      have h1 : x * x = 0 := by linarith
      have h2 : (xs.map (fun x => x * x)).sum = 0 := by linarith
      rcases hy with rfl | hy
      · exact mul_self_eq_zero.mp h1
      · exact ih.mp h2 y hy
    · intro h
      rw [show x = 0 from h x (Or.inl rfl), ih.mpr (fun y hy => h y (Or.inr hy))]
      ring

/-- The dot product of a vector with itself is its sum of squares. -/
theorem dotProd_self (v : List ℝ) : dotProd v v = sumSq v := by
  induction v with
  | nil => simp [dotProd, sumSq]
  | cons x xs ih =>
    unfold dotProd sumSq at ih ⊢
    simp only [List.zipWith_cons_cons, List.map_cons, List.sum_cons, ih]

/-- The dot product of a vector with its negation is the negated sum of
squares. -/
theorem dotProd_neg_right (v : List ℝ) :
    dotProd v (v.map (fun x => -x)) = -sumSq v := by
  induction v with
  | nil => simp [dotProd, sumSq]
  | cons x xs ih =>
    unfold dotProd sumSq at ih ⊢
    simp only [List.map_cons, List.zipWith_cons_cons, List.sum_cons, ih]
    ring

/-- Negating a vector does not change its sum of squares. -/
theorem sumSq_map_neg (v : List ℝ) : sumSq (v.map (fun x => -x)) = sumSq v := by
  induction v with
  | nil => simp [sumSq]
  | cons x xs ih =>
    unfold sumSq at ih ⊢
    simp only [List.map_cons, List.sum_cons, ih]
    ring_nf

/-- A vector with a nonzero entry is nonempty and has nonzero sum of
squares. -/
theorem sumSq_ne_zero_of_mem (v : List ℝ) (hv : ∃ x ∈ v, x ≠ 0) :
    sumSq v ≠ 0 ∧ v.length ≠ 0 := by
  obtain ⟨x, hx, hxne⟩ := hv
  constructor
  · intro h
    exact hxne (sumSq_eq_zero_iff v |>.mp h x hx)
  · intro h
    rw [List.length_eq_zero] at h
    rw [h] at hx
    exact absurd hx (List.not_mem_nil x)

/-- C9: `cosineSimilarity` is total (it is a Lean function into ℝ) and, in
the real-arithmetic idealisation, scores a nonzero vector against itself as
exactly 1 and against its negation as exactly -1, while a zero-norm vector
on either side yields exactly 0 rather than an error. -/
theorem cosineSimilarity_spec :
    (∀ v : List ℝ, (∃ x ∈ v, x ≠ 0) → cosineSimilarity v v = 1) ∧
    (∀ v : List ℝ, (∃ x ∈ v, x ≠ 0) →
      cosineSimilarity v (v.map (fun x => -x)) = -1) ∧
    (∀ a b : List ℝ, sumSq a = 0 ∨ sumSq b = 0 → cosineSimilarity a b = 0) := by
  refine ⟨?_, ?_, ?_⟩
  · intro v hv
    obtain ⟨hsq, hlen⟩ := sumSq_ne_zero_of_mem v hv
    have hpos : 0 < sumSq v := lt_of_le_of_ne (sumSq_nonneg v) (Ne.symm hsq)
    have hss : Real.sqrt (sumSq v) * Real.sqrt (sumSq v) = sumSq v :=
      Real.mul_self_sqrt (le_of_lt hpos)
    unfold cosineSimilarity
    rw [if_neg (by push_neg; exact ⟨rfl, hlen⟩), hss, if_neg hsq, dotProd_self,
      div_self hsq]
  · intro v hv
    obtain ⟨hsq, hlen⟩ := sumSq_ne_zero_of_mem v hv
    have hpos : 0 < sumSq v := lt_of_le_of_ne (sumSq_nonneg v) (Ne.symm hsq)
    have hss : Real.sqrt (sumSq v) * Real.sqrt (sumSq v) = sumSq v :=
      Real.mul_self_sqrt (le_of_lt hpos)
    unfold cosineSimilarity
    rw [if_neg (by push_neg; exact ⟨by rw [List.length_map], hlen⟩),
      sumSq_map_neg, hss, if_neg hsq, dotProd_neg_right, neg_div, div_self hsq]
  · intro a b h
    unfold cosineSimilarity
    rcases Decidable.em (a.length ≠ b.length ∨ a.length = 0) with hc | hc
    · rw [if_pos hc]
    · rw [if_neg hc, if_pos (by
        rcases h with h | h <;> rw [h] <;> simp)]

/-- C9 witness: the spec theorem applied to concrete one-entry vectors and
the empty (zero-norm) vector. -/
theorem cosineSimilarity_spec_witness :
    (∃ x ∈ [(1 : ℝ)], x ≠ 0) ∧ cosineSimilarity [(1 : ℝ)] [(1 : ℝ)] = 1 ∧
    cosineSimilarity [(1 : ℝ)] (([(1 : ℝ)]).map (fun x => -x)) = -1 ∧
    (sumSq ([] : List ℝ) = 0 ∨ sumSq [(1 : ℝ)] = 0) ∧
    cosineSimilarity ([] : List ℝ) [(1 : ℝ)] = 0 := by
  have hnz : ∃ x ∈ [(1 : ℝ)], x ≠ 0 := ⟨1, by simp, one_ne_zero⟩
  have hz : sumSq ([] : List ℝ) = 0 := by simp [sumSq]
  exact ⟨hnz, cosineSimilarity_spec.1 [1] hnz, cosineSimilarity_spec.2.1 [1] hnz,
    Or.inl hz, cosineSimilarity_spec.2.2 [] [1] (Or.inl hz)⟩

/-- Re-updating the same meeting's status overwrites the previous update. -/
theorem updateMeetingStatus_overwrite (meetingId : Nat)
    (st1 st2 : ProcessingStatus) (s : Store) :
    updateMeetingStatus meetingId st2 (updateMeetingStatus meetingId st1 s) =
    updateMeetingStatus meetingId st2 s := by
  unfold updateMeetingStatus
  simp only [List.map_map]
  congr 1
  apply List.map_congr_left
  intro m _
  by_cases hm : m.id = meetingId
  · simp [Function.comp, hm]
  · simp [Function.comp, hm]

/-- Fetching a meeting after a status update returns the updated row. -/
theorem getMeeting_updateMeetingStatus (meetingId : Nat) (st : ProcessingStatus)
    (s : Store) :
    getMeeting meetingId (updateMeetingStatus meetingId st s) =
    (getMeeting meetingId s).map fun m => { m with status := st } := by
  unfold getMeeting updateMeetingStatus
  induction s.meetings with
  | nil => simp
  | cons m ms ih =>
    by_cases hm : m.id = meetingId
    · simp [List.find?, hm]
    · simp only [List.map_cons, List.find?, if_neg hm]
      rw [show (m.id == meetingId) = false by simp [hm]]
      exact ih

/-- A status update of an existing meeting is observable through
`statusOf`. -/
theorem statusOf_updateMeetingStatus (meetingId : Nat) (st : ProcessingStatus)
    (s : Store) (h : meetingId ∈ meetingIds s) :
    statusOf (updateMeetingStatus meetingId st s) meetingId = some st := by
  unfold statusOf
  rw [getMeeting_updateMeetingStatus]
  have hex : ∃ x ∈ s.meetings, (fun m => m.id == meetingId) x = true := by
    obtain ⟨m, hm, hid⟩ := List.mem_map.mp h
    exact ⟨m, hm, by simp [hid]⟩
  have hsome : (getMeeting meetingId s).isSome := by
    unfold getMeeting
    exact List.find?_isSome.mpr hex
  obtain ⟨m, hm⟩ := Option.isSome_iff_exists.mp hsome
  rw [hm]
  rfl

/-- Helper for C1: `handleNewMeeting` behaves identically whatever status
was stored before the call. -/
theorem handleNewMeeting_ignores_status (env : Env) (s : Store) (meetingId : Nat)
    (audioUrl : Str) (st : ProcessingStatus) :
    handleNewMeeting env (updateMeetingStatus meetingId st s) meetingId audioUrl =
    handleNewMeeting env s meetingId audioUrl := by
  unfold handleNewMeeting
  rw [updateMeetingStatus_overwrite]

/-- Helper for C1: `handleUpdatedMeeting` behaves identically whatever
status was stored before the call (it reads the meeting row only for
existence and for its transcript). -/
theorem handleUpdatedMeeting_ignores_status (env : Env) (s : Store)
    (meetingId : Nat) (newAudioUrl : Option Str) (st : ProcessingStatus) :
    handleUpdatedMeeting env (updateMeetingStatus meetingId st s) meetingId newAudioUrl =
    handleUpdatedMeeting env s meetingId newAudioUrl := by
  unfold handleUpdatedMeeting
  rw [getMeeting_updateMeetingStatus]
  cases hg : getMeeting meetingId s with
  | none =>
    simp only [Option.map_none']
    rw [updateMeetingStatus_overwrite]
  | some m =>
    simp only [Option.map_some']
    rw [updateMeetingStatus_overwrite]

/-- C1 (amended): the code enforces no per-meeting lock and never consults
the stored status before starting a run — both `handleNewMeeting`
(processNew) and `handleUpdatedMeeting` (reprocess) produce the identical
result and store whatever status, including `processing`, the meeting had
when the run was requested; a second run requested while one is in flight
is therefore started, not rejected. -/
theorem run_start_ignores_prior_status :
    (∀ (env : Env) (s : Store) (meetingId : Nat) (audioUrl : Str)
        (st : ProcessingStatus),
      handleNewMeeting env (updateMeetingStatus meetingId st s) meetingId audioUrl =
        handleNewMeeting env s meetingId audioUrl) ∧
    (∀ (env : Env) (s : Store) (meetingId : Nat) (newAudioUrl : Option Str)
        (st : ProcessingStatus),
      handleUpdatedMeeting env (updateMeetingStatus meetingId st s) meetingId
          newAudioUrl =
        handleUpdatedMeeting env s meetingId newAudioUrl) :=
  ⟨handleNewMeeting_ignores_status, handleUpdatedMeeting_ignores_status⟩

/-- C1 counterexample: with meeting 1 already in status `processing`, a new
`handleNewMeeting` run is not rejected — it runs to completion
(`success = true`) and rewrites the status — refuting the claim that a run
may only start from `ready` or `failed` and that a concurrent second run is
rejected. -/
theorem second_run_not_rejected :
    statusOf c1Store 1 = some ProcessingStatus.processing ∧
    (handleNewMeeting c1Env c1Store 1 (String.toList "audio.mp3")).1.success = true ∧
    statusOf (handleNewMeeting c1Env c1Store 1 (String.toList "audio.mp3")).2 1 =
      some ProcessingStatus.ready := by
  refine ⟨by decide, by decide, by decide⟩

/-- Status updates do not change the set of meeting ids. -/
theorem meetingIds_updateMeetingStatus (meetingId : Nat) (st : ProcessingStatus)
    (s : Store) : meetingIds (updateMeetingStatus meetingId st s) = meetingIds s := by
  unfold meetingIds updateMeetingStatus
  simp only [List.map_map]
  apply List.map_congr_left
  intro m _
  by_cases hm : m.id = meetingId <;> simp [Function.comp, hm]

/-- Saving a transcript does not change the set of meeting ids. -/
theorem meetingIds_setTranscriptReady (meetingId : Nat) (t : Str) (s : Store) :
    meetingIds (setTranscriptReady meetingId t s) = meetingIds s := by
  unfold meetingIds setTranscriptReady
  simp only [List.map_map]
  apply List.map_congr_left
  intro m _
  by_cases hm : m.id = meetingId <;> simp [Function.comp, hm]

/-- Saving a summary does not change the set of meeting ids. -/
theorem meetingIds_updateSummary (meetingId : Nat) (summaryText : Option Str)
    (s : Store) : meetingIds (updateSummary meetingId summaryText s) = meetingIds s := by
  unfold meetingIds updateSummary
  cases summaryText with
  | none => rfl
  | some text =>
    simp only [List.map_map]
    apply List.map_congr_left
    intro m _
    by_cases hm : m.id = meetingId <;> simp [Function.comp, hm]

/-- C3: whenever a `handleNewMeeting` (processNew) run fails — equivalently,
whenever any stage raised — the meeting's persisted status ends as `failed`
and the returned structured result carries `success = false` with an error
string instead of the exception propagating; and a run whose transcription
step fails (provider error or poll-budget timeout) leaves the action items,
decisions and embedding chunks tables exactly as they were. -/
theorem processNew_failure_spec (env : Env) (s : Store) (meetingId : Nat)
    (audioUrl : Str) (hmem : meetingId ∈ meetingIds s) :
    ((handleNewMeeting env s meetingId audioUrl).1.success = false →
      statusOf (handleNewMeeting env s meetingId audioUrl).2 meetingId =
        some ProcessingStatus.failed ∧
      (handleNewMeeting env s meetingId audioUrl).1.error.isSome = true) ∧
    (∀ e, env.transcription audioUrl = .error e →
      (handleNewMeeting env s meetingId audioUrl).1.success = false ∧
      (handleNewMeeting env s meetingId audioUrl).2.action_items = s.action_items ∧
      (handleNewMeeting env s meetingId audioUrl).2.decisions = s.decisions ∧
      (handleNewMeeting env s meetingId audioUrl).2.meeting_embeddings =
        s.meeting_embeddings) := by
  cases htr : env.transcription audioUrl with
  | error e =>
    have hrun : handleNewMeeting env s meetingId audioUrl =
        ({ success := false, meetingId := meetingId, transcript := none,
           actionItems := [], decisions := [], error := some e },
          updateMeetingStatus meetingId .failed
            (updateMeetingStatus meetingId .failed
              (updateMeetingStatus meetingId .processing s))) := by
      unfold handleNewMeeting processMeeting transcribeMeeting
      rw [htr]
    rw [hrun]
    have hst : statusOf (updateMeetingStatus meetingId .failed
        (updateMeetingStatus meetingId .failed
          (updateMeetingStatus meetingId .processing s))) meetingId =
        some ProcessingStatus.failed := by
      rw [updateMeetingStatus_overwrite, updateMeetingStatus_overwrite]
      exact statusOf_updateMeetingStatus meetingId .failed s hmem
    exact ⟨fun _ => ⟨hst, rfl⟩, fun e' _ => ⟨rfl, rfl, rfl, rfl⟩⟩
  | ok t =>
    cases hins : env.insights t with
    | error e2 =>
      have hrun : handleNewMeeting env s meetingId audioUrl =
          ({ success := false, meetingId := meetingId, transcript := none,
             actionItems := [], decisions := [], error := some e2 },
            updateMeetingStatus meetingId .failed
              (setTranscriptReady meetingId t
                (updateMeetingStatus meetingId .processing s))) := by
        simp [handleNewMeeting, processMeeting, transcribeMeeting,
          extractMeetingInsights, htr, hins]
      rw [hrun]
      have hmem2 : meetingId ∈ meetingIds (setTranscriptReady meetingId t
          (updateMeetingStatus meetingId .processing s)) := by
        rw [meetingIds_setTranscriptReady, meetingIds_updateMeetingStatus]
        exact hmem
      exact ⟨fun _ => ⟨statusOf_updateMeetingStatus meetingId .failed _ hmem2, rfl⟩,
        fun e' he' => absurd he' (by simp)⟩
    | ok ins =>
      have hrun : (handleNewMeeting env s meetingId audioUrl).1.success = true := by
        simp [handleNewMeeting, processMeeting, transcribeMeeting,
          extractMeetingInsights, htr, hins]
      refine ⟨fun hfail => ?_, fun e' he' => absurd he' (by simp)⟩
      rw [hrun] at hfail
      exact absurd hfail (by simp)

/-- C3 witness: a concrete transcription-timeout run ends with status
`failed`, a structured error, and untouched derived tables. -/
theorem processNew_failure_spec_witness :
    1 ∈ meetingIds c3Store ∧
    (handleNewMeeting c3Env c3Store 1 (String.toList "a.mp3")).1.success = false ∧
    statusOf (handleNewMeeting c3Env c3Store 1 (String.toList "a.mp3")).2 1 =
      some ProcessingStatus.failed ∧
    (handleNewMeeting c3Env c3Store 1 (String.toList "a.mp3")).1.error.isSome = true ∧
    (handleNewMeeting c3Env c3Store 1 (String.toList "a.mp3")).2.action_items =
      c3Store.action_items := by
  have hmem : 1 ∈ meetingIds c3Store := by decide
  have h := processNew_failure_spec c3Env c3Store 1 (String.toList "a.mp3") hmem
  have htr : c3Env.transcription (String.toList "a.mp3") =
      .error (String.toList "Transcription timed out") := rfl
  have h2 := h.2 _ htr
  exact ⟨hmem, h2.1, (h.1 h2.1).1, (h.1 h2.1).2, h2.2.1⟩

/-- The embedding loop only appends to the embeddings table: it equals a
single record update appending the successfully embedded rows. -/
theorem storeEmbeddingsLoop_eq (env : Env) (meetingId : Nat) :
    ∀ (l : List (Nat × Str)) (s : Store),
      storeEmbeddingsLoop env meetingId l s =
        { s with meeting_embeddings := s.meeting_embeddings ++
            l.filterMap fun p =>
              (env.embed p.2).map fun v => ⟨meetingId, v, p.2, p.1⟩ } := by
  intro l
  induction l with
  | nil =>
    intro s
    simp only [storeEmbeddingsLoop, List.filterMap_nil, List.append_nil]
  | cons p rest ih =>
    intro s
    obtain ⟨i, c⟩ := p
    cases hp : env.embed c with
    | some v =>
      simp only [storeEmbeddingsLoop, hp, ih, List.filterMap_cons, Option.map_some']
      simp
    | none =>
      simp only [storeEmbeddingsLoop, hp, ih, List.filterMap_cons, Option.map_none']

/-- `generateAndStoreEmbeddings` replaces the meeting's embedding rows with
the new generation, touching nothing else. -/
theorem generateAndStoreEmbeddings_eq (env : Env) (meetingId : Nat)
    (transcript : Str) (s : Store) :
    generateAndStoreEmbeddings env meetingId transcript s =
      { s with meeting_embeddings :=
          (s.meeting_embeddings.filter fun r => r.meeting_id != meetingId) ++
            embedRows env meetingId transcript } := by
  unfold generateAndStoreEmbeddings deleteExistingEmbeddings embedRows
  rw [storeEmbeddingsLoop_eq]

/-- Inserting a link touches only the link table. -/
theorem linkTopicToMeeting_frame (meetingId topicId : Nat) (s : Store) :
    (linkTopicToMeeting meetingId topicId s).meetings = s.meetings ∧
    (linkTopicToMeeting meetingId topicId s).action_items = s.action_items ∧
    (linkTopicToMeeting meetingId topicId s).decisions = s.decisions ∧
    (linkTopicToMeeting meetingId topicId s).meeting_embeddings =
      s.meeting_embeddings ∧
    (linkTopicToMeeting meetingId topicId s).topics = s.topics ∧
    (linkTopicToMeeting meetingId topicId s).nextTopicId = s.nextTopicId := by
  unfold linkTopicToMeeting
  by_cases h : (s.meeting_topics.any fun l =>
      l.meeting_id == meetingId && l.topic_id == topicId) = true
  · rw [if_pos h]; exact ⟨rfl, rfl, rfl, rfl, rfl, rfl⟩
  · rw [if_neg h]; exact ⟨rfl, rfl, rfl, rfl, rfl, rfl⟩

/-- A topic upsert touches only the topics, links and id counter. -/
theorem upsertTopicAndLink_frame (env : Env) (meetingId : Nat) (topicName : Str)
    (s : Store) :
    (upsertTopicAndLink env meetingId topicName s).meetings = s.meetings ∧
    (upsertTopicAndLink env meetingId topicName s).action_items = s.action_items ∧
    (upsertTopicAndLink env meetingId topicName s).decisions = s.decisions ∧
    (upsertTopicAndLink env meetingId topicName s).meeting_embeddings =
      s.meeting_embeddings := by
  unfold upsertTopicAndLink
  rcases hfind : s.topics.find? (fun t => t.name == normalizeTopicName topicName)
    with _ | t0
  · simp only [hfind]
    have h := linkTopicToMeeting_frame meetingId s.nextTopicId
      { s with
        topics := s.topics ++
          [⟨s.nextTopicId, normalizeTopicName topicName, 1, some env.now⟩],
        nextTopicId := s.nextTopicId + 1 }
    exact ⟨h.1, h.2.1, h.2.2.1, h.2.2.2.1⟩
  · simp only [hfind]
    have h := linkTopicToMeeting_frame meetingId t0.id
      { s with topics := s.topics.map (fun t =>
          if t.id = t0.id then
            { t with meeting_count := t.meeting_count + 1,
                     last_discussed := some env.now }
          else t) }
    exact ⟨h.1, h.2.1, h.2.2.1, h.2.2.2.1⟩

/-- Folding topic upserts over a name list touches only the topics, links
and id counter. -/
theorem foldl_upsert_frame (env : Env) (meetingId : Nat) :
    ∀ (names : List Str) (s : Store),
      ((names.foldl (fun acc n => upsertTopicAndLink env meetingId n acc) s).meetings =
        s.meetings) ∧
      ((names.foldl (fun acc n => upsertTopicAndLink env meetingId n acc) s).action_items =
        s.action_items) ∧
      ((names.foldl (fun acc n => upsertTopicAndLink env meetingId n acc) s).decisions =
        s.decisions) ∧
      ((names.foldl (fun acc n => upsertTopicAndLink env meetingId n acc) s).meeting_embeddings =
        s.meeting_embeddings) := by
  intro names
  induction names with
  | nil => intro s; exact ⟨rfl, rfl, rfl, rfl⟩
  | cons n ns ih =>
    intro s
    have h1 := upsertTopicAndLink_frame env meetingId n s
    have h2 := ih (upsertTopicAndLink env meetingId n s)
    simp only [List.foldl_cons]
    exact ⟨h2.1.trans h1.1, h2.2.1.trans h1.2.1, h2.2.2.1.trans h1.2.2.1,
      h2.2.2.2.trans h1.2.2.2⟩

/-- The topics/embeddings phase leaves meetings, action items and decisions
untouched. -/
theorem updateTopicsAndEmbeddings_frame (env : Env) (meetingId : Nat)
    (transcript : Str) (s : Store) :
    (updateTopicsAndEmbeddings env meetingId transcript s).meetings = s.meetings ∧
    (updateTopicsAndEmbeddings env meetingId transcript s).action_items =
      s.action_items ∧
    (updateTopicsAndEmbeddings env meetingId transcript s).decisions = s.decisions := by
  unfold updateTopicsAndEmbeddings
  rw [generateAndStoreEmbeddings_eq]
  have hf := foldl_upsert_frame env meetingId (env.topics transcript)
    s
  exact ⟨hf.1, hf.2.1, hf.2.2.1⟩

/-- Saving a summary touches only the meetings table. -/
theorem updateSummary_frame (meetingId : Nat) (summaryText : Option Str) (s : Store) :
    (updateSummary meetingId summaryText s).action_items = s.action_items ∧
    (updateSummary meetingId summaryText s).decisions = s.decisions ∧
    (updateSummary meetingId summaryText s).meeting_embeddings =
      s.meeting_embeddings ∧
    (updateSummary meetingId summaryText s).meeting_topics = s.meeting_topics ∧
    (updateSummary meetingId summaryText s).topics = s.topics := by
  cases summaryText <;> exact ⟨rfl, rfl, rfl, rfl, rfl⟩

/-- A processNew run never removes an existing action-items row: its store
only appends to that table. -/
theorem handleNewMeeting_action_items (env : Env) (s : Store) (meetingId : Nat)
    (audioUrl : Str) :
    ∃ tail, (handleNewMeeting env s meetingId audioUrl).2.action_items =
      s.action_items ++ tail := by
  cases htr : env.transcription audioUrl with
  | error e =>
    exact ⟨[], by simp [handleNewMeeting, processMeeting, transcribeMeeting, htr,
      updateMeetingStatus]⟩
  | ok t =>
    cases hins : env.insights t with
    | error e2 =>
      exact ⟨[], by simp [handleNewMeeting, processMeeting, transcribeMeeting,
        extractMeetingInsights, htr, hins, updateMeetingStatus, setTranscriptReady]⟩
    | ok ins =>
      refine ⟨ins.actionItems.map (mkActionItemRow meetingId), ?_⟩
      have hrun : (handleNewMeeting env s meetingId audioUrl).2 =
          updateTopicsAndEmbeddings env meetingId t
            (updateSummary meetingId (env.summary t)
              { setTranscriptReady meetingId t
                  (updateMeetingStatus meetingId .processing s) with
                action_items :=
                  (setTranscriptReady meetingId t
                    (updateMeetingStatus meetingId .processing s)).action_items ++
                    ins.actionItems.map (mkActionItemRow meetingId),
                decisions :=
                  (setTranscriptReady meetingId t
                    (updateMeetingStatus meetingId .processing s)).decisions ++
                    ins.decisions.map (mkDecisionRow meetingId) }) := by
        simp [handleNewMeeting, processMeeting, transcribeMeeting,
          extractMeetingInsights, htr, hins]
      rw [hrun]
      rw [(updateTopicsAndEmbeddings_frame _ _ _ _).2.1,
        (updateSummary_frame _ _ _).1]
      rfl

/-- A reprocess run removes only the target meeting's rows from the action
items table: rows of other meetings survive. -/
theorem handleUpdatedMeeting_preserves_other_action_items (env : Env) (s : Store)
    (meetingId : Nat) (newAudioUrl : Option Str) (r : ActionItemRow)
    (hne : r.meeting_id ≠ meetingId) (hr : r ∈ s.action_items) :
    r ∈ (handleUpdatedMeeting env s meetingId newAudioUrl).2.action_items := by
  have hkeep : r ∈ s.action_items.filter fun x => x.meeting_id != meetingId :=
    List.mem_filter.mpr ⟨hr, by simp [hne]⟩
  cases hg : getMeeting meetingId s with
  | none =>
    simp only [handleUpdatedMeeting, hg]
    exact hr
  | some m =>
    cases hau : newAudioUrl with
    | some url =>
      cases htr : env.transcription url with
      | error e =>
        simp only [handleUpdatedMeeting, hg, transcribeMeeting, htr]
        exact hkeep
      | ok t =>
        cases hins : env.insights t with
        | error e2 =>
          simp only [handleUpdatedMeeting, hg, transcribeMeeting, htr,
            extractMeetingInsights, hins]
          exact hkeep
        | ok ins =>
          simp only [handleUpdatedMeeting, hg, transcribeMeeting, htr,
            extractMeetingInsights, hins, updateMeetingStatus]
          rw [(updateTopicsAndEmbeddings_frame _ _ _ _).2.1,
            (updateSummary_frame _ _ _).1]
          exact List.mem_append_left _ hkeep
    | none =>
      cases hmt : m.transcript with
      | none =>
        simp only [handleUpdatedMeeting, hg, hmt]
        exact hkeep
      | some t =>
        cases hins : env.insights t with
        | error e2 =>
          simp only [handleUpdatedMeeting, hg, hmt, extractMeetingInsights, hins]
          exact hkeep
        | ok ins =>
          simp only [handleUpdatedMeeting, hg, hmt, extractMeetingInsights, hins,
            updateMeetingStatus]
          rw [(updateTopicsAndEmbeddings_frame _ _ _ _).2.1,
            (updateSummary_frame _ _ _).1]
          exact List.mem_append_left _ hkeep

/-- The processNew result always names the requested meeting. -/
theorem handleNewMeeting_meetingId (env : Env) (s : Store) (meetingId : Nat)
    (audioUrl : Str) :
    (handleNewMeeting env s meetingId audioUrl).1.meetingId = meetingId := by
  unfold handleNewMeeting
  cases hp : processMeeting env meetingId audioUrl
      (updateMeetingStatus meetingId .processing s) with
  | mk res s2 =>
    cases res with
    | error e => simp [hp]
    | ok v =>
      obtain ⟨t, ar, dr⟩ := v
      simp [hp]

/-- The reprocess result always names the requested meeting. -/
theorem handleUpdatedMeeting_meetingId (env : Env) (s : Store) (meetingId : Nat)
    (newAudioUrl : Option Str) :
    (handleUpdatedMeeting env s meetingId newAudioUrl).1.meetingId = meetingId := by
  cases hg : getMeeting meetingId s with
  | none => simp [handleUpdatedMeeting, hg]
  | some m =>
    cases newAudioUrl with
    | some url =>
      cases htr : env.transcription url with
      | error e =>
        simp [handleUpdatedMeeting, hg, transcribeMeeting, htr]
      | ok t =>
        cases hins : env.insights t with
        | error e2 =>
          simp [handleUpdatedMeeting, hg, transcribeMeeting, htr,
            extractMeetingInsights, hins]
        | ok ins =>
          simp [handleUpdatedMeeting, hg, transcribeMeeting, htr,
            extractMeetingInsights, hins]
    | none =>
      cases hmt : m.transcript with
      | none => simp [handleUpdatedMeeting, hg, hmt]
      | some t =>
        cases hins : env.insights t with
        | error e2 =>
          simp [handleUpdatedMeeting, hg, hmt, extractMeetingInsights, hins]
        | ok ins =>
          simp [handleUpdatedMeeting, hg, hmt, extractMeetingInsights, hins]

/-- The recovery loop returns one result per selected meeting, in order. -/
theorem reprocessFailedLoop_results (env : Env) :
    ∀ (lst : List Meeting) (s : Store),
      (reprocessFailedLoop env lst s).1.map (·.meetingId) = lst.map (·.id) := by
  intro lst
  induction lst with
  | nil => intro s; rfl
  | cons m rest ih =>
    intro s
    cases hv : m.video_url with
    | some url =>
      simp only [reprocessFailedLoop, hv, List.map_cons]
      rw [handleNewMeeting_meetingId, ih]
    | none =>
      simp only [reprocessFailedLoop, hv, List.map_cons]
      rw [handleUpdatedMeeting_meetingId, ih]

/-- Rows of a meeting that is only ever re-run through `handleNewMeeting`
(and never through `handleUpdatedMeeting`) survive the recovery loop. -/
theorem reprocessFailedLoop_preserves_action_items (env : Env) (r : ActionItemRow) :
    ∀ (lst : List Meeting) (s : Store),
      (∀ m ∈ lst, m.video_url = none → m.id ≠ r.meeting_id) →
      r ∈ s.action_items →
      r ∈ (reprocessFailedLoop env lst s).2.action_items := by
  intro lst
  induction lst with
  | nil => intro s _ hr; exact hr
  | cons m rest ih =>
    intro s hother hr
    cases hv : m.video_url with
    | some url =>
      simp only [reprocessFailedLoop, hv]
      apply ih _ fun m' hm' => hother m' (List.mem_cons_of_mem _ hm')
      obtain ⟨tail, htail⟩ := handleNewMeeting_action_items env s m.id url
      rw [htail]
      exact List.mem_append_left _ hr
    | none =>
      simp only [reprocessFailedLoop, hv]
      apply ih _ fun m' hm' => hother m' (List.mem_cons_of_mem _ hm')
      apply handleUpdatedMeeting_preserves_other_action_items env s m.id none r
        (fun h => hother m (List.mem_cons_self m rest) hv h.symm) hr

/-- C4 (amended): `reprocessFailedMeetings` selects exactly the meetings
whose status is `failed` (one result per failed meeting, in stored order)
and applies a pacing delay strictly longer than `batchProcessMeetings`;
but a failed meeting with a stored audio reference is re-run through
`handleNewMeeting` (processNew), not through the cleanup-before-rewrite
reprocess path, so its previously stored action-item rows survive
recovery. -/
theorem recoverFailed_spec (env : Env) (s : Store)
    (hnodup : (meetingIds s).Nodup) :
    ((reprocessFailedMeetings env s).1.map (·.meetingId) =
      (s.meetings.filter fun m => m.status == ProcessingStatus.failed).map (·.id)) ∧
    (∀ m ∈ s.meetings, m.status = .failed → m.video_url.isSome = true →
      ∀ r ∈ s.action_items, r.meeting_id = m.id →
        r ∈ (reprocessFailedMeetings env s).2.action_items) ∧
    batchProcessDelayMs < reprocessFailedDelayMs := by
  refine ⟨reprocessFailedLoop_results env _ s, ?_, by norm_num [batchProcessDelayMs,
    reprocessFailedDelayMs]⟩
  intro m hm hfail hvid r hr hrid
  unfold reprocessFailedMeetings
  apply reprocessFailedLoop_preserves_action_items env r _ s _ hr
  intro m' hm' hvnone heq
  have hm'mem : m' ∈ s.meetings := List.mem_of_mem_filter hm'
  have hmm : m' = m :=
    List.inj_on_of_nodup_map hnodup hm'mem hm (by rw [heq, hrid])
  rw [hmm] at hvnone
  rw [hvnone] at hvid
  exact absurd hvid (by simp)

/-- C4 counterexample: recovering failed meeting 1 (which has an audio
reference) leaves both the stale and the new action item in the store,
whereas an actual reprocess of the same store would leave only the new
one — refuting the claim that `recoverFailed` performs a
cleanup-before-rewrite reprocess when an audio reference is present. -/
theorem recoverFailed_no_cleanup :
    ((reprocessFailedMeetings c4Env c4Store).2.action_items.filter
        fun r => r.meeting_id == 1) = [c4OldRow, c4NewRow] ∧
    ((handleUpdatedMeeting c4Env c4Store 1 none).2.action_items.filter
        fun r => r.meeting_id == 1) = [c4NewRow] := by
  exact ⟨by decide, by decide⟩

/-- C4 witness: the amended theorem applied at the concrete store. -/
theorem recoverFailed_spec_witness :
    (meetingIds c4Store).Nodup ∧
    ((reprocessFailedMeetings c4Env c4Store).1.map (·.meetingId) = [1]) ∧
    c4OldRow ∈ (reprocessFailedMeetings c4Env c4Store).2.action_items ∧
    batchProcessDelayMs < reprocessFailedDelayMs := by
  have hnd : (meetingIds c4Store).Nodup := by decide
  have h := recoverFailed_spec c4Env c4Store hnd
  refine ⟨hnd, ?_, ?_, h.2.2⟩
  · rw [h.1]
    decide
  · exact h.2.1 ⟨1, .failed, some (String.toList "tr"), none,
      some (String.toList "u")⟩ (by decide) (by decide) (by decide) c4OldRow
      (by decide) (by decide)

/-- Monotonicity is reflexive. -/
theorem topicsMono_refl (s : Store) : TopicsMono s s :=
  fun t ht => ⟨t, ht, rfl, rfl, le_refl _⟩

/-- Monotonicity composes. -/
theorem topicsMono_trans {s1 s2 s3 : Store} (h12 : TopicsMono s1 s2)
    (h23 : TopicsMono s2 s3) : TopicsMono s1 s3 := by
  intro t ht
  obtain ⟨t2, ht2, hid2, hname2, hc2⟩ := h12 t ht
  obtain ⟨t3, ht3, hid3, hname3, hc3⟩ := h23 t2 ht2
  exact ⟨t3, ht3, by rw [hid3, hid2], by rw [hname3, hname2], le_trans hc2 hc3⟩

/-- An operation that leaves the topics table unchanged is monotone. -/
theorem topicsMono_of_eq {s s' : Store} (h : s'.topics = s.topics) :
    TopicsMono s s' := by
  intro t ht
  exact ⟨t, by rw [h]; exact ht, rfl, rfl, le_refl _⟩

/-- A topic upsert never decreases any counter and never removes or renames
a topic. -/
theorem topicsMono_upsert (env : Env) (meetingId : Nat) (topicName : Str)
    (s : Store) : TopicsMono s (upsertTopicAndLink env meetingId topicName s) := by
  unfold upsertTopicAndLink
  rcases hfind : s.topics.find? (fun t => t.name == normalizeTopicName topicName)
    with _ | t0
  · simp only [hfind]
    intro t ht
    refine ⟨t, ?_, rfl, rfl, le_refl _⟩
    rw [(linkTopicToMeeting_frame _ _ _).2.2.2.2.1]
    exact List.mem_append_left _ ht
  · simp only [hfind]
    intro t ht
    by_cases hid : t.id = t0.id
    · refine ⟨⟨t.id, t.name, t.meeting_count + 1, some env.now⟩, ?_, rfl, rfl,
        Nat.le_succ _⟩
      rw [(linkTopicToMeeting_frame _ _ _).2.2.2.2.1]
      have hm := List.mem_map_of_mem (fun t =>
        if t.id = t0.id then
          { t with meeting_count := t.meeting_count + 1,
                   last_discussed := some env.now }
        else t) ht
      simpa [hid] using hm
    · refine ⟨t, ?_, rfl, rfl, le_refl _⟩
      rw [(linkTopicToMeeting_frame _ _ _).2.2.2.2.1]
      have hm := List.mem_map_of_mem (fun t =>
        if t.id = t0.id then
          { t with meeting_count := t.meeting_count + 1,
                   last_discussed := some env.now }
        else t) ht
      simpa [hid] using hm

/-- Folding upserts over a topic-name list is monotone. -/
theorem topicsMono_foldl (env : Env) (meetingId : Nat) :
    ∀ (names : List Str) (s : Store),
      TopicsMono s (names.foldl (fun acc n => upsertTopicAndLink env meetingId n acc) s) := by
  intro names
  induction names with
  | nil => intro s; exact topicsMono_refl s
  | cons n ns ih =>
    intro s
    simp only [List.foldl_cons]
    exact topicsMono_trans (topicsMono_upsert env meetingId n s) (ih _)

/-- The whole topics/embeddings phase is monotone on the topics table. -/
theorem topicsMono_updateTopicsAndEmbeddings (env : Env) (meetingId : Nat)
    (transcript : Str) (s : Store) :
    TopicsMono s (updateTopicsAndEmbeddings env meetingId transcript s) := by
  unfold updateTopicsAndEmbeddings
  rw [generateAndStoreEmbeddings_eq]
  exact topicsMono_trans (topicsMono_foldl env meetingId (env.topics transcript) s)
    (topicsMono_of_eq rfl)

/-- A processNew run never decreases any topic counter, renames or deletes
a topic. -/
theorem topicsMono_handleNewMeeting (env : Env) (s : Store) (meetingId : Nat)
    (audioUrl : Str) : TopicsMono s (handleNewMeeting env s meetingId audioUrl).2 := by
  cases htr : env.transcription audioUrl with
  | error e =>
    apply topicsMono_of_eq
    simp [handleNewMeeting, processMeeting, transcribeMeeting, htr,
      updateMeetingStatus]
  | ok t =>
    cases hins : env.insights t with
    | error e2 =>
      apply topicsMono_of_eq
      simp [handleNewMeeting, processMeeting, transcribeMeeting,
        extractMeetingInsights, htr, hins, updateMeetingStatus, setTranscriptReady]
    | ok ins =>
      have hrun : (handleNewMeeting env s meetingId audioUrl).2 =
          updateTopicsAndEmbeddings env meetingId t
            (updateSummary meetingId (env.summary t)
              { setTranscriptReady meetingId t
                  (updateMeetingStatus meetingId .processing s) with
                action_items :=
                  (setTranscriptReady meetingId t
                    (updateMeetingStatus meetingId .processing s)).action_items ++
                    ins.actionItems.map (mkActionItemRow meetingId),
                decisions :=
                  (setTranscriptReady meetingId t
                    (updateMeetingStatus meetingId .processing s)).decisions ++
                    ins.decisions.map (mkDecisionRow meetingId) }) := by
        simp [handleNewMeeting, processMeeting, transcribeMeeting,
          extractMeetingInsights, htr, hins]
      rw [hrun]
      refine topicsMono_trans (topicsMono_of_eq ?_)
        (topicsMono_updateTopicsAndEmbeddings env meetingId t _)
      rw [(updateSummary_frame _ _ _).2.2.2.2]
      rfl

/-- A reprocess run never decreases any topic counter, renames or deletes a
topic (its cleanup step removes links only). -/
theorem topicsMono_handleUpdatedMeeting (env : Env) (s : Store) (meetingId : Nat)
    (newAudioUrl : Option Str) :
    TopicsMono s (handleUpdatedMeeting env s meetingId newAudioUrl).2 := by
  have hsucc : ∀ (t : Str) (ins : GeminiInsights) (s4 : Store), s4.topics = s.topics →
      TopicsMono s (updateMeetingStatus meetingId .ready
        (updateTopicsAndEmbeddings env meetingId t s4)) := by
    intro t ins s4 h4
    exact topicsMono_trans (topicsMono_of_eq h4)
      (topicsMono_trans (topicsMono_updateTopicsAndEmbeddings env meetingId t s4)
        (topicsMono_of_eq rfl))
  cases hg : getMeeting meetingId s with
  | none =>
    apply topicsMono_of_eq
    simp [handleUpdatedMeeting, hg, updateMeetingStatus]
  | some m =>
    cases newAudioUrl with
    | some url =>
      cases htr : env.transcription url with
      | error e =>
        apply topicsMono_of_eq
        simp [handleUpdatedMeeting, hg, transcribeMeeting, htr,
          updateMeetingStatus, deleteExistingActionItems, deleteExistingDecisions,
          deleteExistingMeetingTopics, deleteExistingEmbeddings]
      | ok t =>
        cases hins : env.insights t with
        | error e2 =>
          apply topicsMono_of_eq
          simp [handleUpdatedMeeting, hg, transcribeMeeting, htr,
            extractMeetingInsights, hins, updateMeetingStatus, setTranscriptReady,
            deleteExistingActionItems, deleteExistingDecisions,
            deleteExistingMeetingTopics, deleteExistingEmbeddings]
        | ok ins =>
          have hrun : (handleUpdatedMeeting env s meetingId (some url)).2 =
              updateMeetingStatus meetingId .ready
                (updateTopicsAndEmbeddings env meetingId t
                  (updateSummary meetingId (env.summary t)
                    { setTranscriptReady meetingId t
                        (deleteExistingEmbeddings meetingId
                          (deleteExistingMeetingTopics meetingId
                            (deleteExistingDecisions meetingId
                              (deleteExistingActionItems meetingId
                                (updateMeetingStatus meetingId .processing s))))) with
                      action_items :=
                        (setTranscriptReady meetingId t
                          (deleteExistingEmbeddings meetingId
                            (deleteExistingMeetingTopics meetingId
                              (deleteExistingDecisions meetingId
                                (deleteExistingActionItems meetingId
                                  (updateMeetingStatus meetingId .processing s)))))).action_items ++
                          ins.actionItems.map (mkActionItemRow meetingId),
                      decisions :=
                        (setTranscriptReady meetingId t
                          (deleteExistingEmbeddings meetingId
                            (deleteExistingMeetingTopics meetingId
                              (deleteExistingDecisions meetingId
                                (deleteExistingActionItems meetingId
                                  (updateMeetingStatus meetingId .processing s)))))).decisions ++
                          ins.decisions.map (mkDecisionRow meetingId) })) := by
            simp [handleUpdatedMeeting, hg, transcribeMeeting, htr,
              extractMeetingInsights, hins]
          rw [hrun]
          apply hsucc t ins
          rw [(updateSummary_frame _ _ _).2.2.2.2]
          rfl
    | none =>
      cases hmt : m.transcript with
      | none =>
        apply topicsMono_of_eq
        simp [handleUpdatedMeeting, hg, hmt, updateMeetingStatus,
          deleteExistingActionItems, deleteExistingDecisions,
          deleteExistingMeetingTopics, deleteExistingEmbeddings]
      | some t =>
        cases hins : env.insights t with
        | error e2 =>
          apply topicsMono_of_eq
          simp [handleUpdatedMeeting, hg, hmt, extractMeetingInsights, hins,
            updateMeetingStatus, deleteExistingActionItems,
            deleteExistingDecisions, deleteExistingMeetingTopics,
            deleteExistingEmbeddings]
        | ok ins =>
          have hrun : (handleUpdatedMeeting env s meetingId none).2 =
              updateMeetingStatus meetingId .ready
                (updateTopicsAndEmbeddings env meetingId t
                  (updateSummary meetingId (env.summary t)
                    { deleteExistingEmbeddings meetingId
                        (deleteExistingMeetingTopics meetingId
                          (deleteExistingDecisions meetingId
                            (deleteExistingActionItems meetingId
                              (updateMeetingStatus meetingId .processing s)))) with
                      action_items :=
                        (deleteExistingEmbeddings meetingId
                          (deleteExistingMeetingTopics meetingId
                            (deleteExistingDecisions meetingId
                              (deleteExistingActionItems meetingId
                                (updateMeetingStatus meetingId .processing s))))).action_items ++
                          ins.actionItems.map (mkActionItemRow meetingId),
                      decisions :=
                        (deleteExistingEmbeddings meetingId
                          (deleteExistingMeetingTopics meetingId
                            (deleteExistingDecisions meetingId
                              (deleteExistingActionItems meetingId
                                (updateMeetingStatus meetingId .processing s))))).decisions ++
                          ins.decisions.map (mkDecisionRow meetingId) })) := by
            simp [handleUpdatedMeeting, hg, hmt, extractMeetingInsights, hins]
          rw [hrun]
          apply hsucc t ins
          rw [(updateSummary_frame _ _ _).2.2.2.2]
          rfl

/-- C8: `upsertTopicAndLink` normalizes the name; when a topic with that
normalized name exists its occurrence counter is incremented by exactly 1
and its last-discussed timestamp refreshed, otherwise the topic is created
with counter 1; and neither a processNew run nor a reprocess run (whose
cleanup removes only meeting-topic links) ever decreases, renames or
deletes any topic's counter. -/
theorem topicCounter_spec :
    (∀ (env : Env) (meetingId : Nat) (topicName : Str) (s : Store) (t0 : TopicRow),
      s.topics.find? (fun t => t.name == normalizeTopicName topicName) = some t0 →
        ∃ t' ∈ (upsertTopicAndLink env meetingId topicName s).topics,
          t'.id = t0.id ∧ t'.name = t0.name ∧
          t'.meeting_count = t0.meeting_count + 1 ∧
          t'.last_discussed = some env.now) ∧
    (∀ (env : Env) (meetingId : Nat) (topicName : Str) (s : Store),
      s.topics.find? (fun t => t.name == normalizeTopicName topicName) = none →
        ∃ t' ∈ (upsertTopicAndLink env meetingId topicName s).topics,
          t'.name = normalizeTopicName topicName ∧ t'.meeting_count = 1 ∧
          t'.last_discussed = some env.now) ∧
    (∀ (env : Env) (s : Store) (meetingId : Nat) (audioUrl : Str),
      TopicsMono s (handleNewMeeting env s meetingId audioUrl).2) ∧
    (∀ (env : Env) (s : Store) (meetingId : Nat) (newAudioUrl : Option Str),
      TopicsMono s (handleUpdatedMeeting env s meetingId newAudioUrl).2) := by
  refine ⟨?_, ?_, topicsMono_handleNewMeeting, topicsMono_handleUpdatedMeeting⟩
  · intro env meetingId topicName s t0 hfind
    unfold upsertTopicAndLink
    simp only [hfind]
    rw [(linkTopicToMeeting_frame _ _ _).2.2.2.2.1]
    refine ⟨⟨t0.id, t0.name, t0.meeting_count + 1, some env.now⟩, ?_, rfl, rfl,
      rfl, rfl⟩
    have ht0 : t0 ∈ s.topics := List.mem_of_find?_eq_some hfind
    have hm := List.mem_map_of_mem (fun t =>
      if t.id = t0.id then
        { t with meeting_count := t.meeting_count + 1,
                 last_discussed := some env.now }
      else t) ht0
    simpa using hm
  · intro env meetingId topicName s hfind
    unfold upsertTopicAndLink
    simp only [hfind]
    rw [(linkTopicToMeeting_frame _ _ _).2.2.2.2.1]
    exact ⟨⟨s.nextTopicId, normalizeTopicName topicName, 1, some env.now⟩,
      List.mem_append_right _ (List.mem_singleton.mpr rfl), rfl, rfl, rfl⟩

/-- C8 witness: upserting the un-normalized name " Budget " finds the
existing topic and bumps its counter from 3 to 4; upserting a fresh name
creates a counter-1 topic. -/
theorem topicCounter_spec_witness :
    (c8Store.topics.find?
      (fun t => t.name == normalizeTopicName (String.toList " Budget ")) =
        some ⟨5, String.toList "budget", 3, none⟩) ∧
    (∃ t' ∈ (upsertTopicAndLink c8Env 1 (String.toList " Budget ") c8Store).topics,
      t'.id = 5 ∧ t'.name = String.toList "budget" ∧ t'.meeting_count = 4 ∧
      t'.last_discussed = some c8Env.now) ∧
    (c8Store.topics.find?
      (fun t => t.name == normalizeTopicName (String.toList "roadmap")) = none) ∧
    (∃ t' ∈ (upsertTopicAndLink c8Env 1 (String.toList "roadmap") c8Store).topics,
      t'.name = normalizeTopicName (String.toList "roadmap") ∧
      t'.meeting_count = 1 ∧ t'.last_discussed = some c8Env.now) := by
  have hfind : c8Store.topics.find?
      (fun t => t.name == normalizeTopicName (String.toList " Budget ")) =
        some ⟨5, String.toList "budget", 3, none⟩ := by decide
  have hnone : c8Store.topics.find?
      (fun t => t.name == normalizeTopicName (String.toList "roadmap")) = none := by
    decide
  exact ⟨hfind,
    topicCounter_spec.1 c8Env 1 (String.toList " Budget ") c8Store _ hfind,
    hnone,
    topicCounter_spec.2.1 c8Env 1 (String.toList "roadmap") c8Store hnone⟩

/-- A status update leaves the action items table untouched. -/
theorem updateMeetingStatus_action_items (meetingId : Nat) (st : ProcessingStatus)
    (s : Store) : (updateMeetingStatus meetingId st s).action_items = s.action_items := rfl

/-- A status update leaves the decisions table untouched. -/
theorem updateMeetingStatus_decisions (meetingId : Nat) (st : ProcessingStatus)
    (s : Store) : (updateMeetingStatus meetingId st s).decisions = s.decisions := rfl

/-- A status update leaves the embeddings table untouched. -/
theorem updateMeetingStatus_meeting_embeddings (meetingId : Nat)
    (st : ProcessingStatus) (s : Store) :
    (updateMeetingStatus meetingId st s).meeting_embeddings = s.meeting_embeddings := rfl

/-- A status update leaves the link table untouched. -/
theorem updateMeetingStatus_meeting_topics (meetingId : Nat) (st : ProcessingStatus)
    (s : Store) : (updateMeetingStatus meetingId st s).meeting_topics = s.meeting_topics := rfl

/-- A status update leaves the topics table untouched. -/
theorem updateMeetingStatus_topics (meetingId : Nat) (st : ProcessingStatus)
    (s : Store) : (updateMeetingStatus meetingId st s).topics = s.topics := rfl

/-- Filtering for a key out of a list from which that key was filtered away,
with keyed rows appended, yields exactly the appended rows. -/
theorem filter_key_append {α : Type} (key : α → Nat) (mid : Nat) (Y rows : List α)
    (hrows : ∀ r ∈ rows, key r = mid) :
    ((Y.filter fun r => key r != mid) ++ rows).filter (fun r => key r == mid) = rows := by
  rw [List.filter_append]
  have h1 : (Y.filter fun r => key r != mid).filter (fun r => key r == mid) = [] := by
    rw [List.filter_eq_nil_iff]
    intro a ha
    have h2 := (List.mem_filter.mp ha).2
    rw [bne_iff_ne] at h2
    simp [h2]
  have h2 : rows.filter (fun r => key r == mid) = rows :=
    List.filter_eq_self.mpr fun a ha => by simp [hrows a ha]
  rw [h1, h2, List.nil_append]

/-- Every row the newest run writes to the embeddings table names the
processed meeting. -/
theorem embedRows_meeting_id (env : Env) (meetingId : Nat) (transcript : Str) :
    ∀ r ∈ embedRows env meetingId transcript, r.meeting_id = meetingId := by
  intro r hr
  obtain ⟨p, _, hp⟩ := List.mem_filterMap.mp hr
  cases he : env.embed p.2 with
  | none => rw [he] at hp; exact absurd hp (by simp)
  | some v =>
    rw [he] at hp
    simp only [Option.map_some'] at hp
    rw [← Option.some_inj.mp hp]

/-- A store with no links for the meeting satisfies the invariant. -/
theorem linksOnlyNew_of_no_links (meetingId : Nat) (names : List Str) (s : Store)
    (h : ∀ l ∈ s.meeting_topics, l.meeting_id ≠ meetingId) :
    LinksOnlyNew meetingId names s :=
  fun l hl hmid => absurd hmid (h l hl)

/-- The invariant transfers along operations that change neither the topics
nor the link table. -/
theorem linksOnlyNew_of_eq (meetingId : Nat) (names : List Str) {s s' : Store}
    (ht : s'.topics = s.topics) (hl : s'.meeting_topics = s.meeting_topics)
    (h : LinksOnlyNew meetingId names s) : LinksOnlyNew meetingId names s' := by
  intro l hll hmid
  rw [hl] at hll
  obtain ⟨tp, htp, hid, hn⟩ := h l hll hmid
  exact ⟨tp, by rw [ht]; exact htp, hid, hn⟩

/-- Linking the meeting to a topic that carries one of the run's names
preserves the invariant. -/
theorem linksOnlyNew_link (meetingId : Nat) (names : List Str) (topicId : Nat)
    (s : Store) (h : LinksOnlyNew meetingId names s)
    (htp : ∃ tp ∈ s.topics, tp.id = topicId ∧
      tp.name ∈ names.map normalizeTopicName) :
    LinksOnlyNew meetingId names (linkTopicToMeeting meetingId topicId s) := by
  unfold linkTopicToMeeting
  by_cases hc : (s.meeting_topics.any fun l =>
      l.meeting_id == meetingId && l.topic_id == topicId) = true
  · rw [if_pos hc]; exact h
  · rw [if_neg hc]
    intro l hl hmid
    rcases List.mem_append.mp hl with h1 | h2
    · exact h l h1 hmid
    · rw [List.mem_singleton.mp h2]
      obtain ⟨tp, htp', hid, hn⟩ := htp
      exact ⟨tp, htp', hid, hn⟩

/-- A topic upsert for one of the run's names preserves the invariant. -/
theorem linksOnlyNew_upsert (env : Env) (meetingId : Nat) (names : List Str)
    (topicName : Str) (s : Store) (hname : topicName ∈ names)
    (h : LinksOnlyNew meetingId names s) :
    LinksOnlyNew meetingId names (upsertTopicAndLink env meetingId topicName s) := by
  unfold upsertTopicAndLink
  rcases hfind : s.topics.find? (fun t => t.name == normalizeTopicName topicName)
    with _ | t0
  · simp only [hfind]
    apply linksOnlyNew_link
    · intro l hl hmid
      obtain ⟨tp, htp, hid, hn⟩ := h l hl hmid
      exact ⟨tp, List.mem_append_left _ htp, hid, hn⟩
    · refine ⟨⟨s.nextTopicId, normalizeTopicName topicName, 1, some env.now⟩,
        List.mem_append_right _ (List.mem_singleton.mpr rfl), rfl, ?_⟩
      exact List.mem_map_of_mem normalizeTopicName hname
  · simp only [hfind]
    have hbump : ∀ tp ∈ s.topics,
        (if tp.id = t0.id then
          { tp with meeting_count := tp.meeting_count + 1,
                    last_discussed := some env.now }
        else tp) ∈ s.topics.map (fun t =>
          if t.id = t0.id then
            { t with meeting_count := t.meeting_count + 1,
                     last_discussed := some env.now }
          else t) :=
      fun tp htp => List.mem_map_of_mem _ htp
    apply linksOnlyNew_link
    · intro l hl hmid
      obtain ⟨tp, htp, hid, hn⟩ := h l hl hmid
      by_cases hi : tp.id = t0.id
      · refine ⟨⟨tp.id, tp.name, tp.meeting_count + 1, some env.now⟩, ?_, hid, hn⟩
        have hm := hbump tp htp
        simpa [hi] using hm
      · refine ⟨tp, ?_, hid, hn⟩
        have hm := hbump tp htp
        simpa [hi] using hm
    · have ht0 : t0 ∈ s.topics := List.mem_of_find?_eq_some hfind
      have hb := List.find?_some hfind
      have ht0name : t0.name = normalizeTopicName topicName :=
        eq_of_beq (by simpa using hb)
      refine ⟨⟨t0.id, t0.name, t0.meeting_count + 1, some env.now⟩, ?_, rfl, ?_⟩
      · have hm := hbump t0 ht0
        simpa using hm
      · rw [ht0name]
        exact List.mem_map_of_mem normalizeTopicName hname

/-- Folding upserts over the run's topic names preserves the invariant. -/
theorem linksOnlyNew_foldl (env : Env) (meetingId : Nat) (names : List Str) :
    ∀ (lst : List Str) (s : Store), (∀ n ∈ lst, n ∈ names) →
      LinksOnlyNew meetingId names s →
      LinksOnlyNew meetingId names
        (lst.foldl (fun acc n => upsertTopicAndLink env meetingId n acc) s) := by
  intro lst
  induction lst with
  | nil => intro s _ h; exact h
  | cons n ns ih =>
    intro s hmem h
    simp only [List.foldl_cons]
    exact ih _ (fun n' hn' => hmem n' (List.mem_cons_of_mem _ hn'))
      (linksOnlyNew_upsert env meetingId names n s (hmem n (List.mem_cons_self _ _)) h)

/-- After the whole success tail of a reprocess — topic upserts, embedding
regeneration and the final status write — every link of the meeting points
at a topic named by the newest run. -/
theorem linksOnlyNew_final (env : Env) (meetingId : Nat) (t : Str) (D : Store)
    (hD : ∀ l ∈ D.meeting_topics, l.meeting_id ≠ meetingId) :
    LinksOnlyNew meetingId (env.topics t)
      (updateMeetingStatus meetingId .ready
        (updateTopicsAndEmbeddings env meetingId t D)) := by
  have h0 : LinksOnlyNew meetingId (env.topics t) D :=
    linksOnlyNew_of_no_links _ _ _ hD
  have h1 := linksOnlyNew_foldl env meetingId (env.topics t) (env.topics t) D
    (fun n hn => hn) h0
  unfold updateTopicsAndEmbeddings
  rw [generateAndStoreEmbeddings_eq]
  exact linksOnlyNew_of_eq _ _ rfl rfl h1

/-- Shared shape of both reprocess success paths (with and without a new
audio URL): the intermediate store `B` agrees with the original store on
the derived tables up to the cleanup filters, the extracted rows are
appended, the summary saved, the topics/embeddings phase run, and the
status set to `ready`.  All four derived tables then contain, for the
processed meeting, exactly the newest run's rows. -/
theorem reprocess_success_tables (env : Env) (s : Store) (meetingId : Nat)
    (t : Str) (ins : GeminiInsights) (B : Store)
    (hBa : B.action_items = s.action_items.filter fun r => r.meeting_id != meetingId)
    (hBd : B.decisions = s.decisions.filter fun r => r.meeting_id != meetingId)
    (hBe : B.meeting_embeddings =
      s.meeting_embeddings.filter fun r => r.meeting_id != meetingId)
    (hBl : B.meeting_topics =
      s.meeting_topics.filter fun r => r.meeting_id != meetingId) :
    ((updateMeetingStatus meetingId .ready
        (updateTopicsAndEmbeddings env meetingId t
          (updateSummary meetingId (env.summary t)
            { B with
              action_items := B.action_items ++
                ins.actionItems.map (mkActionItemRow meetingId),
              decisions := B.decisions ++
                ins.decisions.map (mkDecisionRow meetingId) }))).action_items.filter
        fun r => r.meeting_id == meetingId) =
      ins.actionItems.map (mkActionItemRow meetingId) ∧
    ((updateMeetingStatus meetingId .ready
        (updateTopicsAndEmbeddings env meetingId t
          (updateSummary meetingId (env.summary t)
            { B with
              action_items := B.action_items ++
                ins.actionItems.map (mkActionItemRow meetingId),
              decisions := B.decisions ++
                ins.decisions.map (mkDecisionRow meetingId) }))).decisions.filter
        fun r => r.meeting_id == meetingId) =
      ins.decisions.map (mkDecisionRow meetingId) ∧
    ((updateMeetingStatus meetingId .ready
        (updateTopicsAndEmbeddings env meetingId t
          (updateSummary meetingId (env.summary t)
            { B with
              action_items := B.action_items ++
                ins.actionItems.map (mkActionItemRow meetingId),
              decisions := B.decisions ++
                ins.decisions.map (mkDecisionRow meetingId) }))).meeting_embeddings.filter
        fun r => r.meeting_id == meetingId) =
      embedRows env meetingId t ∧
    (∀ l ∈ (updateMeetingStatus meetingId .ready
        (updateTopicsAndEmbeddings env meetingId t
          (updateSummary meetingId (env.summary t)
            { B with
              action_items := B.action_items ++
                ins.actionItems.map (mkActionItemRow meetingId),
              decisions := B.decisions ++
                ins.decisions.map (mkDecisionRow meetingId) }))).meeting_topics,
      l.meeting_id = meetingId →
        ∃ tp ∈ (updateMeetingStatus meetingId .ready
          (updateTopicsAndEmbeddings env meetingId t
            (updateSummary meetingId (env.summary t)
              { B with
                action_items := B.action_items ++
                  ins.actionItems.map (mkActionItemRow meetingId),
                decisions := B.decisions ++
                  ins.decisions.map (mkDecisionRow meetingId) }))).topics,
          tp.id = l.topic_id ∧
          tp.name ∈ (env.topics t).map normalizeTopicName) := by
  have hrowsA : ∀ r ∈ ins.actionItems.map (mkActionItemRow meetingId),
      r.meeting_id = meetingId := by
    intro r hr
    obtain ⟨i, _, rfl⟩ := List.mem_map.mp hr
    rfl
  have hrowsD : ∀ r ∈ ins.decisions.map (mkDecisionRow meetingId),
      r.meeting_id = meetingId := by
    intro r hr
    obtain ⟨i, _, rfl⟩ := List.mem_map.mp hr
    rfl
  refine ⟨?_, ?_, ?_, ?_⟩
  · rw [updateMeetingStatus_action_items,
      (updateTopicsAndEmbeddings_frame _ _ _ _).2.1,
      (updateSummary_frame _ _ _).1]
    show ((B.action_items ++ ins.actionItems.map (mkActionItemRow meetingId)).filter
      fun r => r.meeting_id == meetingId) = _
    rw [hBa]
    exact filter_key_append (·.meeting_id) meetingId s.action_items _ hrowsA
  · rw [updateMeetingStatus_decisions,
      (updateTopicsAndEmbeddings_frame _ _ _ _).2.2,
      (updateSummary_frame _ _ _).2.1]
    show ((B.decisions ++ ins.decisions.map (mkDecisionRow meetingId)).filter
      fun r => r.meeting_id == meetingId) = _
    rw [hBd]
    exact filter_key_append (·.meeting_id) meetingId s.decisions _ hrowsD
  · rw [updateMeetingStatus_meeting_embeddings]
    unfold updateTopicsAndEmbeddings
    rw [generateAndStoreEmbeddings_eq]
    dsimp only
    rw [(foldl_upsert_frame env meetingId (env.topics t) _).2.2.2,
      (updateSummary_frame _ _ _).2.2.1]
    dsimp only
    rw [hBe]
    exact filter_key_append (fun r : EmbeddingRow => r.meeting_id) meetingId _ _
      (embedRows_meeting_id env meetingId t)
  · apply linksOnlyNew_final
    rw [(updateSummary_frame _ _ _).2.2.2.1]
    show ∀ l ∈ B.meeting_topics, l.meeting_id ≠ meetingId
    rw [hBl]
    intro l hl
    have h2 := (List.mem_filter.mp hl).2
    rw [bne_iff_ne] at h2
    exact h2

/-- C2: a reprocess run never deletes or renames Topic entities (only their
links to the meeting, which its cleanup removes); and when
`handleUpdatedMeeting` completes successfully, the stored action items,
decisions and embedding chunks for that meeting are exactly the rows the
newest run produced, and every surviving link of the meeting points at a
topic named by the newest run — nothing from any prior run remains. -/
theorem reprocess_exact_rows (env : Env) (s : Store) (meetingId : Nat)
    (newAudioUrl : Option Str) :
    (∀ t ∈ s.topics,
      ∃ t' ∈ (handleUpdatedMeeting env s meetingId newAudioUrl).2.topics,
        t'.id = t.id ∧ t'.name = t.name) ∧
    ((handleUpdatedMeeting env s meetingId newAudioUrl).1.success = true →
      ∃ tr, (handleUpdatedMeeting env s meetingId newAudioUrl).1.transcript = some tr ∧
        ((handleUpdatedMeeting env s meetingId newAudioUrl).2.action_items.filter
            fun r => r.meeting_id == meetingId) =
          (handleUpdatedMeeting env s meetingId newAudioUrl).1.actionItems ∧
        ((handleUpdatedMeeting env s meetingId newAudioUrl).2.decisions.filter
            fun r => r.meeting_id == meetingId) =
          (handleUpdatedMeeting env s meetingId newAudioUrl).1.decisions ∧
        ((handleUpdatedMeeting env s meetingId newAudioUrl).2.meeting_embeddings.filter
            fun r => r.meeting_id == meetingId) = embedRows env meetingId tr ∧
        (∀ l ∈ (handleUpdatedMeeting env s meetingId newAudioUrl).2.meeting_topics,
          l.meeting_id = meetingId →
            ∃ tp ∈ (handleUpdatedMeeting env s meetingId newAudioUrl).2.topics,
              tp.id = l.topic_id ∧
              tp.name ∈ (env.topics tr).map normalizeTopicName)) := by
  constructor
  · intro t ht
    obtain ⟨t', ht', hid, hname, _⟩ :=
      topicsMono_handleUpdatedMeeting env s meetingId newAudioUrl t ht
    exact ⟨t', ht', hid, hname⟩
  · intro hsucc
    cases hg : getMeeting meetingId s with
    | none =>
      have hfalse : (handleUpdatedMeeting env s meetingId newAudioUrl).1.success = false := by
        simp [handleUpdatedMeeting, hg]
      rw [hfalse] at hsucc
      exact absurd hsucc (by simp)
    | some m =>
      cases hau : newAudioUrl with
      | some url =>
        cases htr : env.transcription url with
        | error e =>
          have hfalse : (handleUpdatedMeeting env s meetingId (some url)).1.success = false := by
            simp [handleUpdatedMeeting, hg, transcribeMeeting, htr]
          rw [hau, hfalse] at hsucc
          exact absurd hsucc (by simp)
        | ok t =>
          cases hins : env.insights t with
          | error e2 =>
            have hfalse : (handleUpdatedMeeting env s meetingId (some url)).1.success = false := by
              simp [handleUpdatedMeeting, hg, transcribeMeeting, htr,
                extractMeetingInsights, hins]
            rw [hau, hfalse] at hsucc
            exact absurd hsucc (by simp)
          | ok ins =>
            have hpair : handleUpdatedMeeting env s meetingId (some url) =
                ({ success := true, meetingId := meetingId, transcript := some t,
                   actionItems := ins.actionItems.map (mkActionItemRow meetingId),
                   decisions := ins.decisions.map (mkDecisionRow meetingId),
                   error := none },
                  updateMeetingStatus meetingId .ready
                    (updateTopicsAndEmbeddings env meetingId t
                      (updateSummary meetingId (env.summary t)
                        { setTranscriptReady meetingId t
                            (deleteExistingEmbeddings meetingId
                              (deleteExistingMeetingTopics meetingId
                                (deleteExistingDecisions meetingId
                                  (deleteExistingActionItems meetingId
                                    (updateMeetingStatus meetingId .processing s))))) with
                          action_items :=
                            (setTranscriptReady meetingId t
                              (deleteExistingEmbeddings meetingId
                                (deleteExistingMeetingTopics meetingId
                                  (deleteExistingDecisions meetingId
                                    (deleteExistingActionItems meetingId
                                      (updateMeetingStatus meetingId .processing s)))))).action_items ++
                              ins.actionItems.map (mkActionItemRow meetingId),
                          decisions :=
                            (setTranscriptReady meetingId t
                              (deleteExistingEmbeddings meetingId
                                (deleteExistingMeetingTopics meetingId
                                  (deleteExistingDecisions meetingId
                                    (deleteExistingActionItems meetingId
                                      (updateMeetingStatus meetingId .processing s)))))).decisions ++
                              ins.decisions.map (mkDecisionRow meetingId) }))) := by
              simp [handleUpdatedMeeting, hg, transcribeMeeting, htr,
                extractMeetingInsights, hins]
            have htables := reprocess_success_tables env s meetingId t ins
              (setTranscriptReady meetingId t
                (deleteExistingEmbeddings meetingId
                  (deleteExistingMeetingTopics meetingId
                    (deleteExistingDecisions meetingId
                      (deleteExistingActionItems meetingId
                        (updateMeetingStatus meetingId .processing s))))))
              rfl rfl rfl rfl
            rw [hpair]
            exact ⟨t, rfl, htables.1, htables.2.1, htables.2.2.1, htables.2.2.2⟩
      | none =>
        cases hmt : m.transcript with
        | none =>
          have hfalse : (handleUpdatedMeeting env s meetingId none).1.success = false := by
            simp [handleUpdatedMeeting, hg, hmt]
          rw [hau, hfalse] at hsucc
          exact absurd hsucc (by simp)
        | some t =>
          cases hins : env.insights t with
          | error e2 =>
            have hfalse : (handleUpdatedMeeting env s meetingId none).1.success = false := by
              simp [handleUpdatedMeeting, hg, hmt, extractMeetingInsights, hins]
            rw [hau, hfalse] at hsucc
            exact absurd hsucc (by simp)
          | ok ins =>
            have hpair : handleUpdatedMeeting env s meetingId none =
                ({ success := true, meetingId := meetingId, transcript := some t,
                   actionItems := ins.actionItems.map (mkActionItemRow meetingId),
                   decisions := ins.decisions.map (mkDecisionRow meetingId),
                   error := none },
                  updateMeetingStatus meetingId .ready
                    (updateTopicsAndEmbeddings env meetingId t
                      (updateSummary meetingId (env.summary t)
                        { deleteExistingEmbeddings meetingId
                            (deleteExistingMeetingTopics meetingId
                              (deleteExistingDecisions meetingId
                                (deleteExistingActionItems meetingId
                                  (updateMeetingStatus meetingId .processing s)))) with
                          action_items :=
                            (deleteExistingEmbeddings meetingId
                              (deleteExistingMeetingTopics meetingId
                                (deleteExistingDecisions meetingId
                                  (deleteExistingActionItems meetingId
                                    (updateMeetingStatus meetingId .processing s))))).action_items ++
                              ins.actionItems.map (mkActionItemRow meetingId),
                          decisions :=
                            (deleteExistingEmbeddings meetingId
                              (deleteExistingMeetingTopics meetingId
                                (deleteExistingDecisions meetingId
                                  (deleteExistingActionItems meetingId
                                    (updateMeetingStatus meetingId .processing s))))).decisions ++
                              ins.decisions.map (mkDecisionRow meetingId) }))) := by
              simp [handleUpdatedMeeting, hg, hmt, extractMeetingInsights, hins]
            have htables := reprocess_success_tables env s meetingId t ins
              (deleteExistingEmbeddings meetingId
                (deleteExistingMeetingTopics meetingId
                  (deleteExistingDecisions meetingId
                    (deleteExistingActionItems meetingId
                      (updateMeetingStatus meetingId .processing s)))))
              rfl rfl rfl rfl
            rw [hpair]
            exact ⟨t, rfl, htables.1, htables.2.1, htables.2.2.1, htables.2.2.2⟩

/-- C2 witness: the claim theorem applied at the concrete store — the run
succeeds, the prior topic survives, and the meeting's derived rows are
exactly the newest run's. -/
theorem reprocess_exact_rows_witness :
    (handleUpdatedMeeting c2Env c2Store 1 none).1.success = true ∧
    (∃ t' ∈ (handleUpdatedMeeting c2Env c2Store 1 none).2.topics,
      t'.id = 9 ∧ t'.name = String.toList "old") ∧
    (∃ tr, (handleUpdatedMeeting c2Env c2Store 1 none).1.transcript = some tr ∧
      ((handleUpdatedMeeting c2Env c2Store 1 none).2.action_items.filter
          fun r => r.meeting_id == 1) =
        (handleUpdatedMeeting c2Env c2Store 1 none).1.actionItems ∧
      ((handleUpdatedMeeting c2Env c2Store 1 none).2.decisions.filter
          fun r => r.meeting_id == 1) =
        (handleUpdatedMeeting c2Env c2Store 1 none).1.decisions ∧
      ((handleUpdatedMeeting c2Env c2Store 1 none).2.meeting_embeddings.filter
          fun r => r.meeting_id == 1) = embedRows c2Env 1 tr ∧
      (∀ l ∈ (handleUpdatedMeeting c2Env c2Store 1 none).2.meeting_topics,
        l.meeting_id = 1 →
          ∃ tp ∈ (handleUpdatedMeeting c2Env c2Store 1 none).2.topics,
            tp.id = l.topic_id ∧
            tp.name ∈ (c2Env.topics tr).map normalizeTopicName)) := by
  have h := reprocess_exact_rows c2Env c2Store 1 none
  have hsucc : (handleUpdatedMeeting c2Env c2Store 1 none).1.success = true := by
    decide
  refine ⟨hsucc, ?_, h.2 hsucc⟩
  obtain ⟨t', ht', hid, hname⟩ :=
    h.1 ⟨9, String.toList "old", 2, none⟩ (by decide)
  exact ⟨t', ht', hid, hname⟩

/-- C7: over an empty embedding corpus, a nonempty question gets the
canned no-relevant-content answer with an empty source list, and zero
generation-model calls are made. -/
theorem answer_empty_corpus (question : Str) (topK : Nat)
    (queryEmbedding : List ℝ) (gen : Str → Except Str Str) (s : Store)
    (hq : (trimChars question).length ≠ 0)
    (hcorpus : s.meeting_embeddings = []) :
    answerMeetingQuestion question topK queryEmbedding gen s =
      (.ok ⟨qaNoContentMsg, []⟩, 0) := by
  unfold answerMeetingQuestion
  rw [if_neg hq]
  have hfind : findRelevantChunks question topK queryEmbedding s = [] := by
    unfold findRelevantChunks
    rw [if_pos (by rw [hcorpus]; rfl)]
  simp only [hfind]
  rfl

/-- C7 witness: the theorem applied to a concrete nonempty question and
the empty corpus. -/
theorem answer_empty_corpus_witness :
    ((trimChars (String.toList "What was decided?")).length ≠ 0) ∧
    (c7Store.meeting_embeddings = []) ∧
    answerMeetingQuestion (String.toList "What was decided?") 5 []
        (fun _ => .error []) c7Store =
      (.ok ⟨qaNoContentMsg, []⟩, 0) :=
  ⟨by decide, rfl,
    answer_empty_corpus (String.toList "What was decided?") 5 []
      (fun _ => .error []) c7Store (by decide) rfl⟩

/-- C10: the orchestrator-level answer operation is total by construction
and never rethrows: an empty or whitespace-only question returns the fixed
validity message with no sources and zero Q&A service invocations, and
when the Q&A service throws, the error message is embedded in the returned
answer string with an empty source list. -/
theorem orchestrator_answer_total (question : Str) (topK : Nat)
    (queryEmbedding : List ℝ) (gen : Str → Except Str Str) (s : Store) :
    ((trimChars question).length = 0 →
      getAnswerForQuestion question topK queryEmbedding gen s =
        (⟨validQuestionMsg, []⟩, 0)) ∧
    (∀ e, (trimChars question).length ≠ 0 →
      (answerMeetingQuestion question topK queryEmbedding gen s).1 = .error e →
      getAnswerForQuestion question topK queryEmbedding gen s =
        (⟨qaErrorHead ++ e ++ qaErrorTail, []⟩, 1)) := by
  constructor
  · intro hq
    unfold getAnswerForQuestion
    rw [if_pos hq]
  · intro e hq herr
    unfold getAnswerForQuestion
    rw [if_neg hq, herr]

/-- C10 witness: the theorem applied at an empty question (fixed message,
zero service calls) and at a failing generation call (error embedded in
the answer, empty sources). -/
theorem orchestrator_answer_total_witness :
    ((trimChars (String.toList "   ")).length = 0) ∧
    getAnswerForQuestion (String.toList "   ") 5 [] (fun _ => .error []) c10Store =
      (⟨validQuestionMsg, []⟩, 0) ∧
    getAnswerForQuestion (String.toList "why?") 5 []
        (fun _ => .error (String.toList "boom")) c10Store =
      (⟨qaErrorHead ++ (String.toList "Q&A failed: " ++ String.toList "boom") ++
          qaErrorTail, []⟩, 1) := by
  refine ⟨by decide, (orchestrator_answer_total _ 5 [] _ c10Store).1 (by decide), ?_⟩
  apply (orchestrator_answer_total (String.toList "why?") 5 []
    (fun _ => .error (String.toList "boom")) c10Store).2
    (String.toList "Q&A failed: " ++ String.toList "boom") (by decide)
  rfl

/-- Inserting into the descending sort produces a permutation. -/
theorem perm_insertByRelevance {α : Type} (key : α → ℝ) (x : α) :
    ∀ l : List α, (insertByRelevance key x l).Perm (x :: l) := by
  intro l
  induction l with
  | nil => exact List.Perm.refl _
  | cons y ys ih =>
    unfold insertByRelevance
    by_cases h : key y < key x
    · rw [if_pos h]
    · rw [if_neg h]
      exact (List.Perm.cons y ih).trans (List.Perm.swap x y ys)

/-- The descending sort is a permutation of its input. -/
theorem perm_sortByRelevance {α : Type} (key : α → ℝ) :
    ∀ l : List α, (sortByRelevance key l).Perm l := by
  intro l
  induction l with
  | nil => exact List.Perm.refl _
  | cons x xs ih =>
    exact (perm_insertByRelevance key x _).trans (List.Perm.cons x ih)

/-- Inserting into a weakly descending list keeps it weakly descending. -/
theorem sorted_insertByRelevance {α : Type} (key : α → ℝ) (x : α) :
    ∀ l : List α, List.Sorted (fun a b => key b ≤ key a) l →
      List.Sorted (fun a b => key b ≤ key a) (insertByRelevance key x l) := by
  intro l
  induction l with
  | nil => intro _; simp [insertByRelevance]
  | cons y ys ih =>
    intro h
    unfold insertByRelevance
    by_cases hc : key y < key x
    · rw [if_pos hc]
      rw [List.sorted_cons]
      refine ⟨?_, h⟩
      intro z hz
      rcases List.mem_cons.mp hz with rfl | hz'
      · exact le_of_lt hc
      · exact le_trans ((List.sorted_cons.mp h).1 z hz') (le_of_lt hc)
    · rw [if_neg hc]
      rw [List.sorted_cons] at h ⊢
      refine ⟨?_, ih h.2⟩
      intro z hz
      have hz2 := (perm_insertByRelevance key x ys).mem_iff.mp hz
      rcases List.mem_cons.mp hz2 with rfl | hz'
      · exact le_of_not_lt hc
      · exact h.1 z hz'

/-- The descending sort sorts: its output is weakly descending by key. -/
theorem sorted_sortByRelevance {α : Type} (key : α → ℝ) :
    ∀ l : List α, List.Sorted (fun a b => key b ≤ key a) (sortByRelevance key l) := by
  intro l
  induction l with
  | nil => simp [sortByRelevance]
  | cons x xs ih => exact sorted_insertByRelevance key x _ ih

/-- The dedup loop never returns more than its remaining budget (note the
hypothesis `seen.length < topK`: with `topK = 0` the loop still pushes one
result before noticing the budget, see the counterexample below). -/
theorem dedupLoop_length (topK : Nat) :
    ∀ (L : List ScoredChunk) (seen : List Nat), seen.length < topK →
      (dedupLoop topK seen L).length ≤ topK - seen.length := by
  intro L
  induction L with
  | nil => intro seen h; simp [dedupLoop]
  | cons x xs ih =>
    intro seen h
    unfold dedupLoop
    by_cases hmem : x.meetingId ∈ seen
    · rw [if_pos hmem]
      exact ih seen h
    · rw [if_neg hmem]
      by_cases hbreak : seen.length + 1 ≥ topK
      · rw [if_pos hbreak]
        simp only [List.length_singleton]
        omega
      · rw [if_neg hbreak]
        have h2 := ih (x.meetingId :: seen) (by simp only [List.length_cons]; omega)
        simp only [List.length_cons] at h2 ⊢
        omega

/-- The meeting ids the dedup loop returns are distinct and disjoint from
the already-seen set. -/
theorem dedupLoop_ids (topK : Nat) :
    ∀ (L : List ScoredChunk) (seen : List Nat),
      ((dedupLoop topK seen L).map (fun r => r.meetingId)).Nodup ∧
      ∀ i ∈ (dedupLoop topK seen L).map (fun r => r.meetingId), i ∉ seen := by
  intro L
  induction L with
  | nil => intro seen; simp [dedupLoop]
  | cons x xs ih =>
    intro seen
    unfold dedupLoop
    by_cases hmem : x.meetingId ∈ seen
    · rw [if_pos hmem]
      exact ih seen
    · rw [if_neg hmem]
      by_cases hbreak : seen.length + 1 ≥ topK
      · rw [if_pos hbreak]
        refine ⟨by simp, ?_⟩
        intro i hi
        rw [List.map_singleton, List.mem_singleton] at hi
        rw [hi]
        exact hmem
      · rw [if_neg hbreak]
        obtain ⟨hnd, hdis⟩ := ih (x.meetingId :: seen)
        constructor
        · simp only [List.map_cons]
          rw [List.nodup_cons]
          exact ⟨fun hx => (hdis _ hx) (List.mem_cons_self _ _), hnd⟩
        · intro i hi
          simp only [List.map_cons, List.mem_cons] at hi
          rcases hi with rfl | hi'
          · exact hmem
          · exact fun hseen => (hdis i hi') (List.mem_cons_of_mem _ hseen)

/-- The relevances the dedup loop returns form a sublist of the input
relevances (so sortedness is preserved). -/
theorem dedupLoop_relevances_sublist (topK : Nat) :
    ∀ (L : List ScoredChunk) (seen : List Nat),
      ((dedupLoop topK seen L).map (fun r => r.relevance)).Sublist
        (L.map (fun c => c.relevance)) := by
  intro L
  induction L with
  | nil => intro seen; simp [dedupLoop]
  | cons x xs ih =>
    intro seen
    unfold dedupLoop
    by_cases hmem : x.meetingId ∈ seen
    · rw [if_pos hmem]
      exact (ih seen).cons _
    · rw [if_neg hmem]
      by_cases hbreak : seen.length + 1 ≥ topK
      · rw [if_pos hbreak]
        simp only [List.map_singleton, List.map_cons]
        exact List.Sublist.cons₂ _ (List.nil_sublist _)
      · rw [if_neg hbreak]
        simp only [List.map_cons]
        exact List.Sublist.cons₂ _ (ih (x.meetingId :: seen))

/-- On a weakly descending input, every result the dedup loop keeps is the
first — hence highest-scoring — chunk of its meeting. -/
theorem dedupLoop_max (topK : Nat) :
    ∀ (L : List ScoredChunk) (seen : List Nat),
      List.Sorted (fun a b : ScoredChunk => b.relevance ≤ a.relevance) L →
      ∀ r ∈ dedupLoop topK seen L,
        ∃ x ∈ L, r = ⟨x.meetingId, x.snippet, x.relevance⟩ ∧
          ∀ y ∈ L, y.meetingId = x.meetingId → y.relevance ≤ x.relevance := by
  intro L
  induction L with
  | nil =>
    intro seen _ r hr
    simp [dedupLoop] at hr
  | cons x xs ih =>
    intro seen hsort r hr
    rw [List.sorted_cons] at hsort
    unfold dedupLoop at hr
    by_cases hmem : x.meetingId ∈ seen
    · rw [if_pos hmem] at hr
      obtain ⟨x', hx', hrx', hmax⟩ := ih seen hsort.2 r hr
      refine ⟨x', List.mem_cons_of_mem _ hx', hrx', ?_⟩
      intro y hy hyid
      rcases List.mem_cons.mp hy with rfl | hy'
      · exfalso
        have hrid : r.meetingId ∉ seen :=
          (dedupLoop_ids topK xs seen).2 r.meetingId (List.mem_map_of_mem _ hr)
        rw [hrx'] at hrid
        rw [hyid] at hmem
        exact hrid hmem
      · exact hmax y hy' hyid
    · rw [if_neg hmem] at hr
      by_cases hbreak : seen.length + 1 ≥ topK
      · rw [if_pos hbreak] at hr
        rw [List.mem_singleton] at hr
        refine ⟨x, List.mem_cons_self _ _, hr, ?_⟩
        intro y hy _
        rcases List.mem_cons.mp hy with rfl | hy'
        · exact le_refl _
        · exact hsort.1 y hy'
      · rw [if_neg hbreak] at hr
        rcases List.mem_cons.mp hr with rfl | hr'
        · refine ⟨x, List.mem_cons_self _ _, rfl, ?_⟩
          intro y hy _
          rcases List.mem_cons.mp hy with rfl | hy'
          · exact le_refl _
          · exact hsort.1 y hy'
        · obtain ⟨x', hx', hrx', hmax⟩ := ih (x.meetingId :: seen) hsort.2 r hr'
          refine ⟨x', List.mem_cons_of_mem _ hx', hrx', ?_⟩
          intro y hy hyid
          rcases List.mem_cons.mp hy with hyx | hy'
          · exfalso
            have hrid : r.meetingId ∉ x.meetingId :: seen :=
              (dedupLoop_ids topK xs (x.meetingId :: seen)).2 r.meetingId
                (List.mem_map_of_mem _ hr')
            rw [hrx'] at hrid
            apply hrid
            rw [← hyid, hyx]
            exact List.mem_cons_self _ _
          · exact hmax y hy' hyid

/-- C6 (amended): for a nonempty query and `topK ≥ 1`, `searchMeetings`
returns at most `topK` results, each from a distinct meeting, each carrying
the highest similarity any of that meeting's stored chunks scores against
the query embedding, in weakly descending relevance order (strictness fails
on ties, and the `topK = 0` bound fails — see the counterexample). -/
theorem search_ranking_spec (query : Str) (topK : Nat) (queryEmbedding : List ℝ)
    (s : Store) (hq : (trimChars query).length ≠ 0) (htop : 1 ≤ topK) :
    ∀ res, searchMeetings query topK queryEmbedding s = .ok res →
      res.length ≤ topK ∧
      (res.map (fun r => r.meetingId)).Nodup ∧
      List.Sorted (fun a b : ℝ => b ≤ a) (res.map (fun r => r.relevance)) ∧
      ∀ r ∈ res, ∃ c ∈ s.meeting_embeddings, c.meeting_id = r.meetingId ∧
        r.relevance = cosineSimilarity queryEmbedding c.embedding ∧
        ∀ c2 ∈ s.meeting_embeddings, c2.meeting_id = r.meetingId →
          cosineSimilarity queryEmbedding c2.embedding ≤ r.relevance := by
  intro res hres
  unfold searchMeetings at hres
  rw [if_neg hq] at hres
  by_cases hemp : s.meeting_embeddings.length = 0
  · rw [if_pos hemp] at hres
    have hnil : ([] : List MeetingSearchResult) = res := by
      injection hres
    rw [← hnil]
    refine ⟨Nat.zero_le _, List.nodup_nil, List.sorted_nil, ?_⟩
    intro r hr
    exact absurd hr (List.not_mem_nil r)
  · rw [if_neg hemp] at hres
    have heq : dedupLoop topK []
        (sortByRelevance (fun c => c.relevance)
          (s.meeting_embeddings.map fun record =>
            ({ meetingId := record.meeting_id,
               snippet := truncateSnippet record.content_chunk 300,
               relevance := cosineSimilarity queryEmbedding record.embedding,
               fullChunk := record.content_chunk } : ScoredChunk))) = res := by
      injection hres
    set S := s.meeting_embeddings.map fun record =>
      ({ meetingId := record.meeting_id,
         snippet := truncateSnippet record.content_chunk 300,
         relevance := cosineSimilarity queryEmbedding record.embedding,
         fullChunk := record.content_chunk } : ScoredChunk) with hS
    set sortedS := sortByRelevance (fun c : ScoredChunk => c.relevance) S with hsortedS
    have hsorted : List.Sorted
        (fun a b : ScoredChunk => b.relevance ≤ a.relevance) sortedS :=
      sorted_sortByRelevance (fun c : ScoredChunk => c.relevance) S
    refine ⟨?_, ?_, ?_, ?_⟩
    · rw [← heq]
      have h := dedupLoop_length topK sortedS [] (by simpa using htop)
      simpa using h
    · rw [← heq]
      exact (dedupLoop_ids topK sortedS []).1
    · rw [← heq]
      have hsub := dedupLoop_relevances_sublist topK sortedS []
      have hmap : List.Sorted (fun a b : ℝ => b ≤ a)
          (sortedS.map fun c => c.relevance) := by
        apply List.Pairwise.map
        · intro a b hab
          exact hab
        · exact hsorted
      exact List.Pairwise.sublist hsub hmap
    · intro r hr
      rw [← heq] at hr
      obtain ⟨x, hx, hrx, hmax⟩ := dedupLoop_max topK sortedS [] hsorted r hr
      have hxS : x ∈ S := (perm_sortByRelevance _ S).mem_iff.mp hx
      rw [hS] at hxS
      obtain ⟨c, hc, hcx⟩ := List.mem_map.mp hxS
      refine ⟨c, hc, ?_, ?_, ?_⟩
      · rw [hrx, ← hcx]
      · rw [hrx, ← hcx]
      · intro c2 hc2 hc2id
        have hyS : (⟨c2.meeting_id, truncateSnippet c2.content_chunk 300,
            cosineSimilarity queryEmbedding c2.embedding, c2.content_chunk⟩ :
              ScoredChunk) ∈ S := by
          rw [hS]
          exact List.mem_map_of_mem _ hc2
        have hySorted := (perm_sortByRelevance
          (fun c : ScoredChunk => c.relevance) S).mem_iff.mpr hyS
        have := hmax _ hySorted (by
          show c2.meeting_id = x.meetingId
          rw [hc2id, hrx])
        rw [hrx]
        exact this

/-- C6 counterexample: `searchMeetings` with `topK = 0` still returns one
result (the loop pushes before it checks the budget), violating "at most
topK results"; and with two equally relevant meetings the returned
relevance list is a tie, so the order is not strictly descending. -/
theorem search_ranking_violations :
    ((searchMeetings (String.toList "q") 0 [] c6Store).map
      fun res => res.length) = .ok 1 ∧
    ((searchMeetings (String.toList "q") 2 [] c6Store).map
        fun res => res.map fun r => r.relevance) =
      .ok [cosineSimilarity [] [], cosineSimilarity [] []] ∧
    ¬ List.Sorted (fun a b : ℝ => b < a)
      [cosineSimilarity ([] : List ℝ) [], cosineSimilarity [] []] := by
  have hsort : sortByRelevance (fun c : ScoredChunk => c.relevance)
      (c6Store.meeting_embeddings.map fun record =>
        ({ meetingId := record.meeting_id,
           snippet := truncateSnippet record.content_chunk 300,
           relevance := cosineSimilarity [] record.embedding,
           fullChunk := record.content_chunk } : ScoredChunk)) =
      [⟨2, truncateSnippet (String.toList "beta") 300, cosineSimilarity [] [],
          String.toList "beta"⟩,
        ⟨1, truncateSnippet (String.toList "alpha") 300, cosineSimilarity [] [],
          String.toList "alpha"⟩] := by
    show sortByRelevance (fun c : ScoredChunk => c.relevance)
      [⟨1, truncateSnippet (String.toList "alpha") 300, cosineSimilarity [] [],
          String.toList "alpha"⟩,
        ⟨2, truncateSnippet (String.toList "beta") 300, cosineSimilarity [] [],
          String.toList "beta"⟩] = _
    unfold sortByRelevance sortByRelevance sortByRelevance
    unfold insertByRelevance insertByRelevance
    simp [lt_self_iff_false]
  refine ⟨?_, ?_, ?_⟩
  · have h : searchMeetings (String.toList "q") 0 [] c6Store =
        .ok [⟨2, truncateSnippet (String.toList "beta") 300,
          cosineSimilarity [] []⟩] := by
      unfold searchMeetings
      rw [if_neg (by decide), if_neg (by decide), hsort]
      rfl
    rw [h]
    rfl
  · have h : searchMeetings (String.toList "q") 2 [] c6Store =
        .ok [⟨2, truncateSnippet (String.toList "beta") 300,
            cosineSimilarity [] []⟩,
          ⟨1, truncateSnippet (String.toList "alpha") 300,
            cosineSimilarity [] []⟩] := by
      unfold searchMeetings
      rw [if_neg (by decide), if_neg (by decide), hsort]
      rfl
    rw [h]
    rfl
  · intro hsorted
    rw [List.sorted_cons] at hsorted
    exact lt_irrefl _ (hsorted.1 _ (List.mem_singleton.mpr rfl))

/-- C6 witness: the amended theorem applied at a concrete nonempty query,
`topK = 3` and the empty corpus, where the search returns no results. -/
theorem search_ranking_spec_witness :
    ((trimChars (String.toList "q")).length ≠ 0) ∧ 1 ≤ 3 ∧
    searchMeetings (String.toList "q") 3 [] c6EmptyStore = .ok [] ∧
    ([] : List MeetingSearchResult).length ≤ 3 ∧
    (([] : List MeetingSearchResult).map (fun r => r.meetingId)).Nodup := by
  have hok : searchMeetings (String.toList "q") 3 [] c6EmptyStore = .ok [] := by
    unfold searchMeetings
    rw [if_neg (by decide),
      if_pos (show c6EmptyStore.meeting_embeddings.length = 0 from rfl)]
  have h := search_ranking_spec (String.toList "q") 3 [] c6EmptyStore
    (by decide) (by norm_num) [] hok
  exact ⟨by decide, by norm_num, hok, h.1, h.2.1⟩

end MeetingMind
